import Mathlib

/-!
Verification development for the `updater` program (src/updater.go): a
command-line updater that fetches a GitHub-actions artifact listing, selects
the first non-expired artifact named "sherpa4selfie", downloads its archive to
`dist.zip`, clears or creates the target directory, unzips the archive into it
and finally deletes `dist.zip`.

The Go code is shallowly embedded:
* Strings and paths are Lean `String`s; the target platform is taken to be
  unix-like, so `os.PathSeparator = '/'` and `filepath.Clean`/`path.Clean`
  coincide, as do `filepath.Join` and `path.Join`.
* The filesystem is an association list from canonical path strings to nodes
  (file-with-bytes or directory).  I/O that can fail for environmental reasons
  (network, permissions, corrupt zip data) is driven by explicit Boolean
  oracles, so every run of the Go code corresponds to some oracle valuation.
* Go `int` is `Int`; file bytes are `List Nat`; `float64` arithmetic in the
  size formatter is modelled over `ℚ` (all the divisions the claims mention
  are by powers of two of in-range operands, where binary64 division is exact).
* Recursions that follow Go loops over strings use an explicit fuel argument
  (always called with fuel at least the length of the string, which the loops
  can never exceed, since every iteration consumes at least one character), so
  that all definitions compute by kernel reduction.
-/

namespace UpdaterModel

/-! ## Go path algorithms (`path.Clean`, `Join`, `Dir`, `strings.HasPrefix`) -/

/-- One backtracking step of `path.Clean`'s `..` handling: from the reversed
output buffer, pop the last path element (`out.w--` followed by the scan back
to a separator or to the `dotdot` barrier, then truncation to `out.w`). -/
def backAux (dd : Nat) : List Char → List Char
  | [] => []
  | c :: rest => if dd < rest.length ∧ ¬(c = '/') then backAux dd rest else rest

/-- The main loop of Go `path.Clean` (which equals `filepath.Clean` on unix).
`outRev` is the output buffer in reverse order, `dd` is the `dotdot` barrier.
`fuel` is at least the length of the remaining input; every iteration consumes
at least one input character, so the `fuel = 0` branch is never reached when
the function is called with adequate fuel. -/
def cleanLoop (rooted : Bool) : Nat → List Char → List Char → Nat → List Char
  | 0, _, outRev, _ => outRev
  | _ + 1, [], outRev, _ => outRev
  | fuel + 1, c :: rest, outRev, dd =>
    if c = '/' then
      cleanLoop rooted fuel rest outRev dd
    else if c = '.' ∧ (rest = [] ∨ rest.head? = some '/') then
      cleanLoop rooted fuel rest outRev dd
    else if c = '.' ∧ rest.head? = some '.' ∧
        (rest.tail = [] ∨ rest.tail.head? = some '/') then
      if dd < outRev.length then
        cleanLoop rooted fuel rest.tail (backAux dd outRev) dd
      else if rooted = false then
        let out2 := if 0 < outRev.length then '.' :: '.' :: '/' :: outRev
                    else ['.', '.']
        cleanLoop rooted fuel rest.tail out2 out2.length
      else
        cleanLoop rooted fuel rest.tail outRev dd
    else
      let out2 := if (rooted = true ∧ outRev.length ≠ 1) ∨
                     (rooted = false ∧ outRev.length ≠ 0)
                  then '/' :: outRev else outRev
      cleanLoop rooted fuel (rest.dropWhile (fun x => !(x = '/')))
        ((c :: rest.takeWhile (fun x => !(x = '/'))).reverse ++ out2) dd

/-- Go `path.Clean` (= `filepath.Clean` on unix). -/
def goPathClean (s : String) : String :=
  match s.data with
  | [] => "."
  | c :: _ =>
    let rooted := c = '/'
    let out0 : List Char := if rooted then ['/'] else []
    let dd0 : Nat := if rooted then 1 else 0
    let out := cleanLoop rooted s.data.length s.data out0 dd0
    if out.length = 0 then "." else ⟨out.reverse⟩

/-- Go `path.Join`/`filepath.Join` on two elements (they agree on unix):
skip leading empty elements, join the rest with `"/"`, then `Clean`. -/
def goPathJoin (a b : String) : String :=
  if ¬(a = "") then goPathClean (a ++ "/" ++ b)
  else if ¬(b = "") then goPathClean b
  else ""

/-- Go `strings.HasPrefix`. -/
def goHasPrefix (s pre : String) : Bool := pre.data.isPrefixOf s.data

/-- Split a character list at its last `'/'`: `some (before, after)`, or
`none` when the list has no `'/'`. -/
def splitLastAux : List Char → Option (List Char × List Char)
  | [] => none
  | c :: t =>
    match splitLastAux t with
    | some (p, b) => some (c :: p, b)
    | none => if c = '/' then some ([], t) else none

/-- Everything before the last `'/'` of a canonical path key (the directory
that directly contains the node); `""` when the key has no `'/'`. -/
def keyParent (s : String) : String :=
  match splitLastAux s.data with
  | some (p, _) => ⟨p⟩
  | none => ""

/-- Everything after the last `'/'` of a canonical path key (the base name). -/
def keyBase (s : String) : String :=
  match splitLastAux s.data with
  | some (_, b) => ⟨b⟩
  | none => s

/-- The parent-directory computation inside Go `os.MkdirAll`: strip trailing
separators, strip the last path element, and recurse on `path[:j-1]` when
`j > 1`.  Returns `none` when `MkdirAll` does not recurse. -/
def parentStep (p : String) : Option String :=
  let d1 := p.data.reverse.dropWhile (fun x => x = '/')
  let d2 := d1.dropWhile (fun x => !(x = '/'))
  if 1 < d2.length then some ⟨(d2.drop 1).reverse⟩ else none

/-- Go `filepath.Dir` on unix: `Clean` of everything up to and including the
last separator; `"."` when there is no separator. -/
def goFilepathDir (s : String) : String :=
  match splitLastAux s.data with
  | some (p, _) => goPathClean ⟨p ++ ['/']⟩
  | none => "."

/-- Lexicographic comparison of names by character code, used to model the
sorted order of `ioutil.ReadDir`. -/
def lexLe : List Char → List Char → Bool
  | [], _ => true
  | _ :: _, [] => false
  | a :: s, b :: t => if a = b then lexLe s t else decide (a.toNat < b.toNat)

/-- `sub` occurs as a contiguous substring of `s` (used to state whether an
error message carries a given name). -/
def hasSub (sub : List Char) : List Char → Bool
  | [] => sub.isEmpty
  | c :: t => sub.isPrefixOf (c :: t) || hasSub sub t

theorem parentStep_length_lt (p q : String) (h : parentStep p = some q) :
    q.data.length < p.data.length := by
  unfold parentStep at h
  simp only at h
  split at h
  · rename_i hlen
    cases h
    simp only [List.length_reverse, List.length_drop]
    have h1 : (p.data.reverse.dropWhile (fun x => x = '/')).length ≤ p.data.length := by
      calc (p.data.reverse.dropWhile (fun x => x = '/')).length
          ≤ p.data.reverse.length := (List.dropWhile_sublist _).length_le
        _ = p.data.length := List.length_reverse _
    have h2 : ((p.data.reverse.dropWhile (fun x => x = '/')).dropWhile
        (fun x => !(x = '/'))).length ≤ (p.data.reverse.dropWhile (fun x => x = '/')).length :=
      (List.dropWhile_sublist _).length_le
    omega
  · exact absurd h (by simp)

/-! ## Filesystem model

An association list from canonical path strings (no trailing separator, as
produced by `path.Clean`) to nodes.  `insert` replaces any previous binding,
so key-uniqueness is preserved by every operation. -/

/-- A filesystem node: a regular file with its byte contents, or a directory. -/
inductive FNode where
  | file (content : List Nat)
  | dir
deriving DecidableEq

def FNode.isDirNode : FNode → Bool
  | .dir => true
  | .file _ => false

/-- First-match lookup in an association list of path nodes. -/
def nodesLookup : List (String × FNode) → String → Option FNode
  | [], _ => none
  | (k, v) :: t, q => if k = q then some v else nodesLookup t q

structure FS where
  nodes : List (String × FNode)
deriving DecidableEq

def FS.lookup (fs : FS) (k : String) : Option FNode := nodesLookup fs.nodes k

def FS.containsKey (fs : FS) (k : String) : Bool := (fs.lookup k).isSome

def FS.isDirAt (fs : FS) (k : String) : Bool :=
  match fs.lookup k with
  | some .dir => true
  | _ => false

/-- Create or replace the node at `k`. -/
def FS.insert (fs : FS) (k : String) (v : FNode) : FS :=
  ⟨(k, v) :: fs.nodes.filter (fun kv => !(kv.1 = k : Bool))⟩

/-- Go `os.Remove` effect on the tree: drop the node bound to exactly `k`
(the caller checks existence; `os.Remove` fails on a missing path). -/
def FS.removeKey (fs : FS) (k : String) : FS :=
  ⟨fs.nodes.filter (fun kv => !(kv.1 = k : Bool))⟩

/-- Go `os.RemoveAll` effect: drop `p` itself and every node under it. -/
def FS.removeAllUnder (fs : FS) (p : String) : FS :=
  ⟨fs.nodes.filter (fun kv =>
    !(kv.1 = p : Bool) && !((p ++ "/").data.isPrefixOf kv.1.data))⟩

/-- Stable insertion by name into a name-sorted list, for `ioutil.ReadDir`'s
sorted directory listing. -/
def insertSorted (x : String × Bool) : List (String × Bool) → List (String × Bool)
  | [] => [x]
  | y :: t => if lexLe x.1.data y.1.data then x :: y :: t else y :: insertSorted x t

def sortByName : List (String × Bool) → List (String × Bool)
  | [] => []
  | x :: t => insertSorted x (sortByName t)

/-- Go `ioutil.ReadDir` on a directory that exists: the (base name, is-dir)
pairs of the nodes directly contained in `dir`, sorted by name. -/
def FS.readDir (fs : FS) (dir : String) : List (String × Bool) :=
  sortByName (fs.nodes.filterMap (fun kv =>
    if keyParent kv.1 = dir then some (keyBase kv.1, kv.2.isDirNode) else none))

/-- The keys present in `new` but absent from `old`: what a run created. -/
def FS.newKeys (old new : FS) : List String :=
  (new.nodes.map Prod.fst).filter (fun k => !(old.containsKey k))

theorem nodesLookup_filter (l : List (String × FNode)) (q : String → Bool) (k : String)
    (hk : q k = true) :
    nodesLookup (l.filter (fun kv => q kv.1)) k = nodesLookup l k := by
  induction l with
  | nil => rfl
  | cons kv t ih =>
    obtain ⟨k1, v1⟩ := kv
    by_cases h : k1 = k
    · subst h
      rw [List.filter_cons, if_pos (by simpa using hk)]
      simp [nodesLookup]
    · rw [List.filter_cons]
      by_cases hq : q k1 = true
      · rw [if_pos (by simpa using hq)]
        simp only [nodesLookup, if_neg h]
        exact ih
      · rw [if_neg (by simpa using hq)]
        simp only [nodesLookup, if_neg h]
        exact ih

theorem nodesLookup_filter_none (l : List (String × FNode)) (q : String → Bool) (k : String)
    (hk : q k = false) :
    nodesLookup (l.filter (fun kv => q kv.1)) k = none := by
  induction l with
  | nil => rfl
  | cons kv t ih =>
    obtain ⟨k1, v1⟩ := kv
    rw [List.filter_cons]
    by_cases hq : q k1 = true
    · rw [if_pos (by simpa using hq)]
      have h : ¬(k1 = k) := by rintro rfl; rw [hk] at hq; exact Bool.noConfusion hq
      simp only [nodesLookup, if_neg h]
      exact ih
    · rw [if_neg (by simpa using hq)]
      exact ih

theorem FS.lookup_insert_self (fs : FS) (k : String) (v : FNode) :
    (fs.insert k v).lookup k = some v := by
  simp [FS.insert, FS.lookup, nodesLookup]

theorem FS.lookup_insert_ne (fs : FS) (k k2 : String) (v : FNode) (h : ¬(k2 = k)) :
    (fs.insert k v).lookup k2 = fs.lookup k2 := by
  have hne : ¬(k = k2) := fun hh => h hh.symm
  simp only [FS.insert, FS.lookup, nodesLookup, if_neg hne]
  exact nodesLookup_filter fs.nodes (fun x => !(x = k : Bool)) k2
    (by simp only [decide_eq_false h, Bool.not_false])

theorem FS.lookup_removeKey (fs : FS) (k k2 : String) (h : ¬(k2 = k)) :
    (fs.removeKey k).lookup k2 = fs.lookup k2 := by
  simp only [FS.removeKey, FS.lookup]
  exact nodesLookup_filter fs.nodes (fun x => !(x = k : Bool)) k2
    (by simp only [decide_eq_false h, Bool.not_false])

theorem FS.lookup_removeKey_self (fs : FS) (k : String) :
    (fs.removeKey k).lookup k = none := by
  simp only [FS.removeKey, FS.lookup]
  exact nodesLookup_filter_none fs.nodes (fun x => !(x = k : Bool)) k (by simp)

theorem FS.lookup_removeAllUnder_of_notMatch (fs : FS) (p k : String)
    (h1 : ¬(k = p)) (h2 : ¬((p ++ "/").data.isPrefixOf k.data = true)) :
    (fs.removeAllUnder p).lookup k = fs.lookup k := by
  simp only [FS.removeAllUnder, FS.lookup]
  have h2b : ((p ++ "/").data.isPrefixOf k.data) = false := by
    cases hval : (p ++ "/").data.isPrefixOf k.data
    · rfl
    · exact absurd hval h2
  exact nodesLookup_filter fs.nodes
    (fun x => !(x = p : Bool) && !((p ++ "/").data.isPrefixOf x.data)) k
    (by simp only [decide_eq_false h1, Bool.not_false, Bool.true_and, h2b])

theorem FS.lookup_removeAllUnder_of_match (fs : FS) (p k : String)
    (h : k = p ∨ (p ++ "/").data.isPrefixOf k.data = true) :
    (fs.removeAllUnder p).lookup k = none := by
  simp only [FS.removeAllUnder, FS.lookup]
  refine nodesLookup_filter_none fs.nodes
    (fun x => !(x = p : Bool) && !((p ++ "/").data.isPrefixOf x.data)) k ?_
  rcases h with h | h
  · subst h; simp
  · show (!(k = p : Bool) && !((p ++ "/").data.isPrefixOf k.data)) = false
    rw [h]
    simp

theorem FS.contains_of_lookup_some (fs : FS) (k : String) (v : FNode)
    (h : fs.lookup k = some v) : fs.containsKey k = true := by
  simp [FS.containsKey, h]

/-! ## `os.MkdirAll` -/

/-- Go `os.MkdirAll`: succeed immediately on an existing directory, fail on an
existing file, otherwise create the parent chain and then the directory.
`fuel` dominates the recursion depth; each `parentStep` strictly shortens the
path, so `p.data.length + 1` fuel always suffices. -/
def mkdirAllFuel (fs : FS) (p : String) : Nat → FS × Bool
  | 0 => (fs, false)
  | fuel + 1 =>
    match fs.lookup p with
    | some .dir => (fs, true)
    | some (.file _) => (fs, false)
    | none =>
      let r := match parentStep p with
        | some q => mkdirAllFuel fs q fuel
        | none => (fs, true)
      if r.2 then (r.1.insert p .dir, true) else r

def FS.mkdirAll (fs : FS) (p : String) : FS × Bool :=
  mkdirAllFuel fs p (p.data.length + 1)

/-- The chain of paths that `os.MkdirAll p` walks: `p`, its parent, the
parent's parent, and so on. -/
def parentChainFuel (p : String) : Nat → List String
  | 0 => [p]
  | fuel + 1 =>
    p :: (match parentStep p with
          | some q => parentChainFuel q fuel
          | none => [])

/-- Every path on the `MkdirAll` chain for `p` either lies under the cleaned
destination `d` (so creating it stays inside `d`) or already exists in `fs`
(so `MkdirAll` will not create it).  Used as a decidable side condition. -/
def chainOkB (fs : FS) (d : String) (p : String) : Bool :=
  (parentChainFuel p (p.data.length + 1)).all
    (fun q => goHasPrefix q (d ++ "/") || fs.containsKey q)

theorem mkdirAllFuel_lookup_mono (fs : FS) (p : String) (fuel : Nat)
    (k : String) (v : FNode) (h : fs.lookup k = some v) :
    (mkdirAllFuel fs p fuel).1.lookup k = some v := by
  induction fuel generalizing fs p with
  | zero => exact h
  | succ fuel ih =>
    rcases hl : fs.lookup p with _ | n
    · simp only [mkdirAllFuel, hl]
      have hkp : ¬(k = p) := by
        rintro rfl; rw [h] at hl; exact Option.noConfusion hl
      rcases hps : parentStep p with _ | q
      · simp only [hps, if_true]
        rw [FS.lookup_insert_ne _ _ _ _ hkp]
        exact h
      · simp only [hps]
        by_cases hr : (mkdirAllFuel fs q fuel).2 = true
        · rw [if_pos hr, FS.lookup_insert_ne _ _ _ _ hkp]
          exact ih fs q h
        · rw [if_neg hr]
          exact ih fs q h
    · cases n
      · simp only [mkdirAllFuel, hl]; exact h
      · simp only [mkdirAllFuel, hl]; exact h

theorem mkdirAllFuel_ok_lookup (fs : FS) (p : String) (fuel : Nat)
    (h : (mkdirAllFuel fs p fuel).2 = true) :
    (mkdirAllFuel fs p fuel).1.lookup p = some .dir := by
  cases fuel with
  | zero => exact absurd h (by simp [mkdirAllFuel])
  | succ fuel =>
    rcases hl : fs.lookup p with _ | n
    · simp only [mkdirAllFuel, hl] at h ⊢
      rcases hps : parentStep p with _ | q
      · simp only [hps, if_true]
        exact FS.lookup_insert_self _ _ _
      · simp only [hps] at h ⊢
        by_cases hr : (mkdirAllFuel fs q fuel).2 = true
        · rw [if_pos hr]
          exact FS.lookup_insert_self _ _ _
        · rw [if_neg hr] at h
          exact absurd h hr
    · cases n
      · simp [mkdirAllFuel, hl] at h
      · simp only [mkdirAllFuel, hl]

theorem mkdirAllFuel_new_in_chain (fs : FS) (p : String) (fuel : Nat)
    (k : String) (hnew : (mkdirAllFuel fs p fuel).1.containsKey k = true)
    (hold : fs.containsKey k = false) :
    k ∈ parentChainFuel p fuel := by
  induction fuel generalizing fs p with
  | zero =>
    simp only [mkdirAllFuel] at hnew
    rw [hnew] at hold; exact Bool.noConfusion hold
  | succ fuel ih =>
    unfold parentChainFuel
    rcases hl : fs.lookup p with _ | n
    · simp only [mkdirAllFuel, hl] at hnew
      by_cases hkp : k = p
      · subst hkp; exact List.mem_cons_self _ _
      · refine List.mem_cons_of_mem _ ?_
        rcases hps : parentStep p with _ | q
        · rw [hps] at hnew
          simp only [if_true, FS.containsKey, FS.lookup_insert_ne _ _ _ _ hkp] at hnew
          simp only [FS.containsKey] at hold
          rw [hold] at hnew
          exact Bool.noConfusion hnew
        · rw [hps] at hnew
          simp only
          by_cases hr : (mkdirAllFuel fs q fuel).2 = true
          · rw [if_pos hr] at hnew
            simp only [FS.containsKey, FS.lookup_insert_ne _ _ _ _ hkp] at hnew
            exact ih fs q hnew hold
          · rw [if_neg hr] at hnew
            exact ih fs q hnew hold
    · cases n
      · simp only [mkdirAllFuel, hl] at hnew
        rw [hnew] at hold; exact Bool.noConfusion hold
      · simp only [mkdirAllFuel, hl] at hnew
        rw [hnew] at hold; exact Bool.noConfusion hold

/-! ## The archive extractor (`unzip`) -/

/-- One archive entry, as the `unzip` loop sees it: the stored name, whether
`f.FileInfo().IsDir()`, and the decompressed bytes.  The three Booleans are
environment oracles deciding whether `os.OpenFile`, `f.Open` and `io.Copy`
succeed for this entry (obtaining the declared mode bits never fails, and the
model does not track permission bits). -/
structure ZipEntry where
  name : String
  isDir : Bool
  content : List Nat := []
  openFileOk : Bool := true
  entryOpenOk : Bool := true
  copyOk : Bool := true
deriving DecidableEq

/-- The errors `unzip` can return, in source order of their `return`s. -/
inductive UZErr where
  | openArchive
  | illegalPath (p : String)
  | mkdirAllFailed (p : String)
  | openFileFailed (p : String)
  | entryOpenFailed (p : String)
  | copyFailed (p : String)
deriving DecidableEq

/-- File-handle events on per-entry output files (`outFile` in the source),
used to audit that handles are closed. -/
inductive FEvent where
  | openOut (p : String)
  | closeOut (p : String)
deriving DecidableEq

/-- Result of the entry-processing loop: final filesystem, the `filenames`
return value, the error (if the loop aborted), the output-file handle trace,
and the destination paths of directory entries whose `os.MkdirAll` failed
(the source discards that error without acting on it). -/
structure UnzipOut where
  fs : FS
  names : List String
  err : Option UZErr
  trace : List FEvent
  dirErrs : List String
deriving DecidableEq

/-- The destination path `filepath.Join(dest, f.Name)` of an entry. -/
def resolvePath (dest : String) (e : ZipEntry) : String := goPathJoin dest e.name

/-- Result of processing a single entry: continue with the loop, or halt the
whole extraction. -/
inductive StepRes where
  | cont (fs : FS) (name : String) (trace : List FEvent) (dirErrs : List String)
  | halt (fs : FS) (names : List String) (err : UZErr) (trace : List FEvent)
deriving DecidableEq

/-- One iteration of the `unzip` loop over `r.File`, line for line:
the zip-slip check against `filepath.Clean(dest) + "/"`, the `filenames`
append, the directory branch (`os.MkdirAll` with its error discarded), and
the file branch (`MkdirAll` on the parent, `os.OpenFile` with
`O_WRONLY|O_CREATE|O_TRUNC` which creates or truncates the file, `f.Open`,
`io.Copy`, and the two explicit `Close` calls that precede the copy-error
check). -/
def unzipStep (dest : String) (fs : FS) (e : ZipEntry) : StepRes :=
  let filePath := resolvePath dest e
  if ¬(goHasPrefix filePath (goPathClean dest ++ "/") = true) then
    .halt fs [] (.illegalPath filePath) []
  else if e.isDir then
    let r := fs.mkdirAll filePath
    .cont r.1 filePath [] (if r.2 then [] else [filePath])
  else
    let r := fs.mkdirAll (goFilepathDir filePath)
    if ¬(r.2 = true) then .halt r.1 [filePath] (.mkdirAllFailed filePath) []
    else if ¬(e.openFileOk = true) then
      .halt r.1 [filePath] (.openFileFailed filePath) []
    else
      let fs2 := r.1.insert filePath (.file [])
      if ¬(e.entryOpenOk = true) then
        .halt fs2 [filePath] (.entryOpenFailed filePath) [.openOut filePath]
      else if ¬(e.copyOk = true) then
        .halt fs2 [filePath] (.copyFailed filePath)
          [.openOut filePath, .closeOut filePath]
      else
        .cont (fs2.insert filePath (.file e.content)) filePath
          [.openOut filePath, .closeOut filePath] []

/-- The `unzip` loop over all archive entries. -/
def unzipEntries (dest : String) (fs : FS) : List ZipEntry → UnzipOut
  | [] => ⟨fs, [], none, [], []⟩
  | e :: rest =>
    match unzipStep dest fs e with
    | .halt f ns er t => ⟨f, ns, some er, t, []⟩
    | .cont f nm t de =>
      let r := unzipEntries dest f rest
      ⟨r.fs, nm :: r.names, r.err, t ++ r.trace, de ++ r.dirErrs⟩

/-- Go `unzip(src, dest)`: open the archive (`zip.OpenReader`, whose success
is the `openOk` oracle; the reader itself is closed by `defer`), then walk the
entries. -/
def unzipGo (dest : String) (ents : List ZipEntry) (fs : FS) (openOk : Bool) :
    UnzipOut :=
  if ¬(openOk = true) then ⟨fs, [], some .openArchive, [], []⟩
  else unzipEntries dest fs ents

theorem FS.mkdirAll_lookup_mono (fs : FS) (p : String) (k : String) (v : FNode)
    (h : fs.lookup k = some v) : (fs.mkdirAll p).1.lookup k = some v :=
  mkdirAllFuel_lookup_mono fs p _ k v h

theorem FS.mkdirAll_contains_mono (fs : FS) (p : String) (k : String)
    (h : fs.containsKey k = true) : (fs.mkdirAll p).1.containsKey k = true := by
  simp only [FS.containsKey, Option.isSome_iff_exists] at h
  obtain ⟨v, hv⟩ := h
  exact FS.contains_of_lookup_some _ _ v (FS.mkdirAll_lookup_mono fs p k v hv)

theorem FS.insert_contains_mono (fs : FS) (p : String) (v2 : FNode) (k : String)
    (h : fs.containsKey k = true) : (fs.insert p v2).containsKey k = true := by
  by_cases hk : k = p
  · subst hk; exact FS.contains_of_lookup_some _ _ _ (FS.lookup_insert_self fs k v2)
  · simp only [FS.containsKey, FS.lookup_insert_ne fs p k v2 hk]; exact h

/-- Nodes untouched by any entry's destination path survive the whole loop
unchanged (whether or not the loop aborts). -/
theorem unzipEntries_preserves (dest : String) (ents : List ZipEntry) (fs : FS)
    (p : String) (n : FNode) (hp : fs.lookup p = some n)
    (hnot : ¬(p ∈ ents.map (resolvePath dest))) :
    (unzipEntries dest fs ents).fs.lookup p = some n := by
  induction ents generalizing fs with
  | nil => exact hp
  | cons e rest ih =>
    have hne : ¬(p = resolvePath dest e) := by
      intro hh; exact hnot (by simp [hh])
    have hnot2 : ¬(p ∈ rest.map (resolvePath dest)) := by
      intro hh; exact hnot (by simp [hh])
    show (match unzipStep dest fs e with
      | .halt f ns er t => (⟨f, ns, some er, t, []⟩ : UnzipOut)
      | .cont f nm t de =>
        let r := unzipEntries dest f rest
        ⟨r.fs, nm :: r.names, r.err, t ++ r.trace, de ++ r.dirErrs⟩).fs.lookup p = some n
    unfold unzipStep
    by_cases hc : goHasPrefix (resolvePath dest e) (goPathClean dest ++ "/") = true
    · rw [if_neg (by simpa using hc)]
      by_cases hd : e.isDir
      · simp only [hd, if_true]
        exact ih _ (FS.mkdirAll_lookup_mono fs _ p n hp) hnot2
      · rw [if_neg hd]
        have h1 := FS.mkdirAll_lookup_mono fs (goFilepathDir (resolvePath dest e)) p n hp
        by_cases hmk : (fs.mkdirAll (goFilepathDir (resolvePath dest e))).2 = true
        · rw [if_neg (by simpa using hmk)]
          by_cases hof : e.openFileOk = true
          · rw [if_neg (by simpa using hof)]
            have h2 : ((fs.mkdirAll (goFilepathDir (resolvePath dest e))).1.insert
                (resolvePath dest e) (.file [])).lookup p = some n := by
              rw [FS.lookup_insert_ne _ _ _ _ hne]; exact h1
            by_cases heo : e.entryOpenOk = true
            · rw [if_neg (by simpa using heo)]
              by_cases hcp : e.copyOk = true
              · rw [if_neg (by simpa using hcp)]
                refine ih _ ?_ hnot2
                rw [FS.lookup_insert_ne _ _ _ _ hne]; exact h2
              · rw [if_pos (by simpa using hcp)]
                exact h2
            · rw [if_pos (by simpa using heo)]
              exact h2
          · rw [if_pos (by simpa using hof)]
            exact h1
        · rw [if_pos (by simpa using hmk)]
          exact h1
    · rw [if_pos (by simpa using hc)]
      exact hp

/-- Keys are never deleted by the extraction loop. -/
theorem unzipEntries_contains_mono (dest : String) (ents : List ZipEntry) (fs : FS)
    (k : String) (h : fs.containsKey k = true) :
    (unzipEntries dest fs ents).fs.containsKey k = true := by
  induction ents generalizing fs with
  | nil => exact h
  | cons e rest ih =>
    show (match unzipStep dest fs e with
      | .halt f ns er t => (⟨f, ns, some er, t, []⟩ : UnzipOut)
      | .cont f nm t de =>
        let r := unzipEntries dest f rest
        ⟨r.fs, nm :: r.names, r.err, t ++ r.trace, de ++ r.dirErrs⟩).fs.containsKey k = true
    unfold unzipStep
    by_cases hc : goHasPrefix (resolvePath dest e) (goPathClean dest ++ "/") = true
    · rw [if_neg (by simpa using hc)]
      by_cases hd : e.isDir
      · simp only [hd, if_true]
        exact ih _ (FS.mkdirAll_contains_mono fs _ k h)
      · rw [if_neg hd]
        have h1 := FS.mkdirAll_contains_mono fs (goFilepathDir (resolvePath dest e)) k h
        by_cases hmk : (fs.mkdirAll (goFilepathDir (resolvePath dest e))).2 = true
        · rw [if_neg (by simpa using hmk)]
          by_cases hof : e.openFileOk = true
          · rw [if_neg (by simpa using hof)]
            have h2 := FS.insert_contains_mono _ (resolvePath dest e) (.file []) k h1
            by_cases heo : e.entryOpenOk = true
            · rw [if_neg (by simpa using heo)]
              by_cases hcp : e.copyOk = true
              · rw [if_neg (by simpa using hcp)]
                exact ih _ (FS.insert_contains_mono _ (resolvePath dest e) (.file e.content) k h2)
              · rw [if_pos (by simpa using hcp)]
                exact h2
            · rw [if_pos (by simpa using heo)]
              exact h2
          · rw [if_pos (by simpa using hof)]
            exact h1
        · rw [if_pos (by simpa using hmk)]
          exact h1
    · rw [if_pos (by simpa using hc)]
      exact h

/-- Number of output files still open after replaying a handle trace that
starts with `n` open. -/
def openAfter : List FEvent → Nat → Nat
  | [], n => n
  | .openOut _ :: t, n => openAfter t (n + 1)
  | .closeOut _ :: t, n => openAfter t (n - 1)

/-- Largest number of output files simultaneously open while replaying a
handle trace that starts with `n` open. -/
def maxOpenFrom : List FEvent → Nat → Nat
  | [], n => n
  | .openOut _ :: t, n => max (n + 1) (maxOpenFrom t (n + 1))
  | .closeOut _ :: t, n => maxOpenFrom t (n - 1)

/-- The path whose `MkdirAll` chain an entry walks: the destination itself for
a directory entry, its parent directory for a file entry. -/
def mkTarget (dest : String) (e : ZipEntry) : String :=
  if e.isDir then resolvePath dest e else goFilepathDir (resolvePath dest e)

/-- Everything the per-claim proofs need to know about one iteration of the
`unzip` loop, for both possible outcomes. -/
theorem unzipStep_spec (dest : String) (fs : FS) (e : ZipEntry) :
    (∀ f nm t de, unzipStep dest fs e = .cont f nm t de →
       nm = resolvePath dest e ∧
       goHasPrefix (resolvePath dest e) (goPathClean dest ++ "/") = true ∧
       (t = [] ∨ t = [.openOut (resolvePath dest e), .closeOut (resolvePath dest e)]) ∧
       (e.isDir = false → f.lookup (resolvePath dest e) = some (.file e.content)) ∧
       (e.isDir = true → de = [] → f.lookup (resolvePath dest e) = some FNode.dir) ∧
       (∀ k, f.containsKey k = true → fs.containsKey k = true ∨ k = resolvePath dest e ∨
          k ∈ parentChainFuel (mkTarget dest e) ((mkTarget dest e).data.length + 1)) ∧
       (∀ k, fs.containsKey k = true → f.containsKey k = true)) ∧
    (∀ f ns er t, unzipStep dest fs e = .halt f ns er t →
       (t = [] ∨ t = [.openOut (resolvePath dest e)] ∨
        t = [.openOut (resolvePath dest e), .closeOut (resolvePath dest e)]) ∧
       ((e.isDir = false → e.entryOpenOk = true) → openAfter t 0 = 0) ∧
       maxOpenFrom t 0 ≤ 1 ∧
       (∀ k, f.containsKey k = true → fs.containsKey k = true ∨
          (k = resolvePath dest e ∧
            goHasPrefix (resolvePath dest e) (goPathClean dest ++ "/") = true) ∨
          k ∈ parentChainFuel (mkTarget dest e) ((mkTarget dest e).data.length + 1)) ∧
       (∀ k, fs.containsKey k = true → f.containsKey k = true)) := by
  have contains_new : ∀ (fs2 : FS) (p k : String),
      (fs2.mkdirAll p).1.containsKey k = true →
      fs2.containsKey k = true ∨ k ∈ parentChainFuel p (p.data.length + 1) := by
    intro fs2 p k hk
    by_cases hold : fs2.containsKey k = true
    · exact Or.inl hold
    · exact Or.inr (mkdirAllFuel_new_in_chain fs2 p _ k hk (by simpa using hold))
  have contains_ins : ∀ (fs2 : FS) (p k : String) (v : FNode),
      (fs2.insert p v).containsKey k = true →
      fs2.containsKey k = true ∨ k = p := by
    intro fs2 p k v hk
    by_cases hkp : k = p
    · exact Or.inr hkp
    · simp only [FS.containsKey, FS.lookup_insert_ne _ _ _ _ hkp] at hk
      exact Or.inl hk
  unfold unzipStep
  by_cases hc : goHasPrefix (resolvePath dest e) (goPathClean dest ++ "/") = true
  · rw [if_neg (by simpa using hc)]
    by_cases hd : e.isDir
    · simp only [hd, if_true]
      constructor
      · intro f nm t de h
        cases h
        refine ⟨rfl, hc, Or.inl rfl, by simp [hd], ?_, ?_, ?_⟩
        · intro _ hde
          have hok : (fs.mkdirAll (resolvePath dest e)).2 = true := by
            by_cases hh : (fs.mkdirAll (resolvePath dest e)).2 = true
            · exact hh
            · rw [if_neg hh] at hde; exact absurd hde (by simp)
          have := mkdirAllFuel_ok_lookup fs (resolvePath dest e) _ hok
          exact this
        · intro k hk
          rcases contains_new fs (resolvePath dest e) k hk with h1 | h1
          · exact Or.inl h1
          · refine Or.inr (Or.inr ?_)
            simpa [mkTarget, hd] using h1
        · intro k hk
          exact FS.mkdirAll_contains_mono fs _ k hk
      · intro f ns er t h
        exact absurd h (by simp)
    · rw [if_neg hd]
      simp only [Bool.not_eq_true] at hd
      by_cases hmk : (fs.mkdirAll (goFilepathDir (resolvePath dest e))).2 = true
      · rw [if_neg (by simpa using hmk)]
        by_cases hof : e.openFileOk = true
        · rw [if_neg (by simpa using hof)]
          by_cases heo : e.entryOpenOk = true
          · rw [if_neg (by simpa using heo)]
            by_cases hcp : e.copyOk = true
            · rw [if_neg (by simpa using hcp)]
              constructor
              · intro f nm t de h
                cases h
                refine ⟨rfl, hc, Or.inr rfl, ?_, by simp [hd], ?_, ?_⟩
                · intro _
                  exact FS.lookup_insert_self _ _ _
                · intro k hk
                  rcases contains_ins _ _ _ _ hk with hk2 | hk2
                  · rcases contains_ins _ _ _ _ hk2 with hk3 | hk3
                    · rcases contains_new fs _ k hk3 with h1 | h1
                      · exact Or.inl h1
                      · exact Or.inr (Or.inr (by simpa [mkTarget, hd] using h1))
                    · exact Or.inr (Or.inl hk3)
                  · exact Or.inr (Or.inl hk2)
                · intro k hk
                  exact FS.insert_contains_mono _ _ _ k
                    (FS.insert_contains_mono _ _ _ k (FS.mkdirAll_contains_mono fs _ k hk))
              · intro f ns er t h
                exact absurd h (by simp)
            · rw [if_pos (by simpa using hcp)]
              constructor
              · intro f nm t de h
                exact absurd h (by simp)
              · intro f ns er t h
                cases h
                refine ⟨Or.inr (Or.inr rfl), by intro _; rfl, by simp [maxOpenFrom], ?_, ?_⟩
                · intro k hk
                  rcases contains_ins _ _ _ _ hk with hk2 | hk2
                  · rcases contains_new fs _ k hk2 with h1 | h1
                    · exact Or.inl h1
                    · exact Or.inr (Or.inr (by simpa [mkTarget, hd] using h1))
                  · exact Or.inr (Or.inl ⟨hk2, hc⟩)
                · intro k hk
                  exact FS.insert_contains_mono _ _ _ k (FS.mkdirAll_contains_mono fs _ k hk)
          · rw [if_pos (by simpa using heo)]
            constructor
            · intro f nm t de h
              exact absurd h (by simp)
            · intro f ns er t h
              cases h
              refine ⟨Or.inr (Or.inl rfl), ?_, by simp [maxOpenFrom], ?_, ?_⟩
              · intro hev
                exact absurd (hev hd) (by simpa using heo)
              · intro k hk
                rcases contains_ins _ _ _ _ hk with hk2 | hk2
                · rcases contains_new fs _ k hk2 with h1 | h1
                  · exact Or.inl h1
                  · exact Or.inr (Or.inr (by simpa [mkTarget, hd] using h1))
                · exact Or.inr (Or.inl ⟨hk2, hc⟩)
              · intro k hk
                exact FS.insert_contains_mono _ _ _ k (FS.mkdirAll_contains_mono fs _ k hk)
        · rw [if_pos (by simpa using hof)]
          constructor
          · intro f nm t de h
            exact absurd h (by simp)
          · intro f ns er t h
            cases h
            refine ⟨Or.inl rfl, by intro _; rfl, by simp [maxOpenFrom], ?_, ?_⟩
            · intro k hk
              rcases contains_new fs _ k hk with h1 | h1
              · exact Or.inl h1
              · exact Or.inr (Or.inr (by simpa [mkTarget, hd] using h1))
            · intro k hk
              exact FS.mkdirAll_contains_mono fs _ k hk
      · rw [if_pos (by simpa using hmk)]
        constructor
        · intro f nm t de h
          exact absurd h (by simp)
        · intro f ns er t h
          cases h
          refine ⟨Or.inl rfl, by intro _; rfl, by simp [maxOpenFrom], ?_, ?_⟩
          · intro k hk
            rcases contains_new fs _ k hk with h1 | h1
            · exact Or.inl h1
            · exact Or.inr (Or.inr (by simpa [mkTarget, hd] using h1))
          · intro k hk
            exact FS.mkdirAll_contains_mono fs _ k hk
  · rw [if_pos (by simpa using hc)]
    constructor
    · intro f nm t de h
      exact absurd h (by simp)
    · intro f ns er t h
      cases h
      exact ⟨Or.inl rfl, by intro _; rfl, by simp [maxOpenFrom], fun k hk => Or.inl hk,
        fun k hk => hk⟩

/-- On an error-free run the `filenames` return value is exactly the resolved
destination path of every entry, in archive order. -/
theorem unzipEntries_names (dest : String) (ents : List ZipEntry) (fs : FS)
    (herr : (unzipEntries dest fs ents).err = none) :
    (unzipEntries dest fs ents).names = ents.map (resolvePath dest) := by
  induction ents generalizing fs with
  | nil => rfl
  | cons e rest ih =>
    rcases hstep : unzipStep dest fs e with ⟨f, nm, t, de⟩ | ⟨f, ns, er, t⟩
    · have hname := ((unzipStep_spec dest fs e).1 f nm t de hstep).1
      show (match unzipStep dest fs e with
        | .halt f ns er t => (⟨f, ns, some er, t, []⟩ : UnzipOut)
        | .cont f nm t de =>
          let r := unzipEntries dest f rest
          ⟨r.fs, nm :: r.names, r.err, t ++ r.trace, de ++ r.dirErrs⟩).names =
        (e :: rest).map (resolvePath dest)
      rw [hstep]
      show (unzipEntries dest f rest).names.cons nm = _
      have herr2 : (unzipEntries dest f rest).err = none := by
        have : (unzipEntries dest fs (e :: rest)).err = (unzipEntries dest f rest).err := by
          show (match unzipStep dest fs e with
            | .halt f ns er t => (⟨f, ns, some er, t, []⟩ : UnzipOut)
            | .cont f nm t de =>
              let r := unzipEntries dest f rest
              ⟨r.fs, nm :: r.names, r.err, t ++ r.trace, de ++ r.dirErrs⟩).err = _
          rw [hstep]
        rw [← this]; exact herr
      rw [ih f herr2, hname]
      rfl
    · exfalso
      have : (unzipEntries dest fs (e :: rest)).err = some er := by
        show (match unzipStep dest fs e with
          | .halt f ns er t => (⟨f, ns, some er, t, []⟩ : UnzipOut)
          | .cont f nm t de =>
            let r := unzipEntries dest f rest
            ⟨r.fs, nm :: r.names, r.err, t ++ r.trace, de ++ r.dirErrs⟩).err = _
        rw [hstep]
      rw [this] at herr
      exact Option.noConfusion herr

/-- On an error-free run with pairwise-distinct resolved paths, every file
entry ends up stored with exactly its decompressed bytes, and every directory
entry whose (silently ignored) `MkdirAll` did not fail ends up a directory. -/
theorem unzipEntries_content (dest : String) (ents : List ZipEntry) (fs : FS)
    (herr : (unzipEntries dest fs ents).err = none)
    (hnodup : (ents.map (resolvePath dest)).Nodup) :
    ∀ e, e ∈ ents →
      (e.isDir = false →
        (unzipEntries dest fs ents).fs.lookup (resolvePath dest e) = some (.file e.content)) ∧
      (e.isDir = true → (unzipEntries dest fs ents).dirErrs = [] →
        (unzipEntries dest fs ents).fs.lookup (resolvePath dest e) = some FNode.dir) := by
  induction ents generalizing fs with
  | nil => intro e he; exact absurd he (by simp)
  | cons e0 rest ih =>
    have hunfold : unzipEntries dest fs (e0 :: rest) =
        match unzipStep dest fs e0 with
        | .halt f ns er t => (⟨f, ns, some er, t, []⟩ : UnzipOut)
        | .cont f nm t de =>
          let r := unzipEntries dest f rest
          ⟨r.fs, nm :: r.names, r.err, t ++ r.trace, de ++ r.dirErrs⟩ := rfl
    rcases hstep : unzipStep dest fs e0 with ⟨f, nm, t, de⟩ | ⟨f, ns, er, t⟩
    · rw [hunfold, hstep]
      have hspec := (unzipStep_spec dest fs e0).1 f nm t de hstep
      have herr2 : (unzipEntries dest f rest).err = none := by
        rw [hunfold, hstep] at herr; exact herr
      have hpair : ¬(resolvePath dest e0 ∈ rest.map (resolvePath dest)) ∧
          (rest.map (resolvePath dest)).Nodup := by
        rw [List.map_cons, List.nodup_cons] at hnodup
        exact hnodup
      have hnotin : ¬(resolvePath dest e0 ∈ rest.map (resolvePath dest)) := hpair.1
      intro e he
      rcases List.mem_cons.mp he with rfl | he2
      · constructor
        · intro hd
          show (unzipEntries dest f rest).fs.lookup (resolvePath dest e) = _
          exact unzipEntries_preserves dest rest f _ _ (hspec.2.2.2.1 hd) hnotin
        · intro hd hde
          show (unzipEntries dest f rest).fs.lookup (resolvePath dest e) = _
          have hde2 : de = [] := by
            have : de ++ (unzipEntries dest f rest).dirErrs = [] := hde
            exact (List.append_eq_nil.mp this).1
          exact unzipEntries_preserves dest rest f _ _
            (hspec.2.2.2.2.1 hd hde2) hnotin
      · have hrec := ih f herr2 hpair.2 e he2
        constructor
        · intro hd
          exact (hrec.1 hd : _)
        · intro hd hde
          have hde2 : (unzipEntries dest f rest).dirErrs = [] := by
            have : de ++ (unzipEntries dest f rest).dirErrs = [] := hde
            exact (List.append_eq_nil.mp this).2
          exact (hrec.2 hd hde2 : _)
    · rw [hunfold, hstep] at herr
      exact absurd herr (by simp)

/-- Every key present after the loop was either present in the reference
state `fs0` before the run, or lies strictly under the cleaned destination.
`fs` is the current state (initially `fs0`); the `chainOkB` hypothesis bounds
where the `MkdirAll` chains can create directories. -/
theorem unzipEntries_prefix_inv (dest : String) (ents : List ZipEntry)
    (fs0 fs : FS)
    (hMono : ∀ k, fs0.containsKey k = true → fs.containsKey k = true)
    (hInv : ∀ k, fs.containsKey k = true →
      fs0.containsKey k = true ∨ goHasPrefix k (goPathClean dest ++ "/") = true)
    (hchain : ∀ e, e ∈ ents → chainOkB fs0 (goPathClean dest) (mkTarget dest e) = true) :
    ∀ k, (unzipEntries dest fs ents).fs.containsKey k = true →
      fs0.containsKey k = true ∨ goHasPrefix k (goPathClean dest ++ "/") = true := by
  induction ents generalizing fs with
  | nil => exact hInv
  | cons e0 rest ih =>
    have hunfold : unzipEntries dest fs (e0 :: rest) =
        match unzipStep dest fs e0 with
        | .halt f ns er t => (⟨f, ns, some er, t, []⟩ : UnzipOut)
        | .cont f nm t de =>
          let r := unzipEntries dest f rest
          ⟨r.fs, nm :: r.names, r.err, t ++ r.trace, de ++ r.dirErrs⟩ := rfl
    have hchain0 := hchain e0 (by simp)
    have hchainElem : ∀ k, k ∈ parentChainFuel (mkTarget dest e0)
        ((mkTarget dest e0).data.length + 1) →
        fs0.containsKey k = true ∨ goHasPrefix k (goPathClean dest ++ "/") = true := by
      intro k hk
      have := (List.all_eq_true.mp hchain0) k hk
      rcases (Bool.or_eq_true _ _).mp this with h | h
      · exact Or.inr h
      · exact Or.inl h
    rcases hstep : unzipStep dest fs e0 with ⟨f, nm, t, de⟩ | ⟨f, ns, er, t⟩
    · have hspec := (unzipStep_spec dest fs e0).1 f nm t de hstep
      rw [hunfold, hstep]
      intro k hk
      refine ih f ?_ ?_ (fun e he => hchain e (by simp [he])) k hk
      · intro k2 hk2
        exact hspec.2.2.2.2.2.2 k2 (hMono k2 hk2)
      · intro k2 hk2
        rcases hspec.2.2.2.2.2.1 k2 hk2 with h1 | h1 | h1
        · exact hInv k2 h1
        · subst h1
          exact Or.inr hspec.2.1
        · exact hchainElem k2 h1
    · have hspec := (unzipStep_spec dest fs e0).2 f ns er t hstep
      rw [hunfold, hstep]
      intro k hk
      rcases hspec.2.2.2.1 k hk with h1 | h1 | h1
      · exact hInv k h1
      · exact Or.inr (h1.1 ▸ h1.2)
      · exact hchainElem k h1

/-- At every moment of the extraction loop at most one per-entry output file
is open. -/
theorem unzipEntries_trace_max (dest : String) (ents : List ZipEntry) (fs : FS) :
    maxOpenFrom (unzipEntries dest fs ents).trace 0 ≤ 1 := by
  induction ents generalizing fs with
  | nil => simp [unzipEntries, maxOpenFrom]
  | cons e0 rest ih =>
    have hunfold : unzipEntries dest fs (e0 :: rest) =
        match unzipStep dest fs e0 with
        | .halt f ns er t => (⟨f, ns, some er, t, []⟩ : UnzipOut)
        | .cont f nm t de =>
          let r := unzipEntries dest f rest
          ⟨r.fs, nm :: r.names, r.err, t ++ r.trace, de ++ r.dirErrs⟩ := rfl
    rcases hstep : unzipStep dest fs e0 with ⟨f, nm, t, de⟩ | ⟨f, ns, er, t⟩
    · have hspec := (unzipStep_spec dest fs e0).1 f nm t de hstep
      rw [hunfold, hstep]
      show maxOpenFrom (t ++ (unzipEntries dest f rest).trace) 0 ≤ 1
      rcases hspec.2.2.1 with rfl | rfl
      · simpa using ih f
      · have := ih f
        show maxOpenFrom (FEvent.openOut (resolvePath dest e0) ::
          FEvent.closeOut (resolvePath dest e0) :: (unzipEntries dest f rest).trace) 0 ≤ 1
        simp only [maxOpenFrom, Nat.add_sub_cancel]
        omega
    · have hspec := (unzipStep_spec dest fs e0).2 f ns er t hstep
      rw [hunfold, hstep]
      exact hspec.2.2.1

/-- If no file entry's compressed stream fails to open, every output-file
handle opened by the loop is closed again by the time the loop returns. -/
theorem unzipEntries_trace_balanced (dest : String) (ents : List ZipEntry) (fs : FS)
    (h : ∀ e, e ∈ ents → e.isDir = false → e.entryOpenOk = true) :
    openAfter (unzipEntries dest fs ents).trace 0 = 0 := by
  induction ents generalizing fs with
  | nil => simp [unzipEntries, openAfter]
  | cons e0 rest ih =>
    have hunfold : unzipEntries dest fs (e0 :: rest) =
        match unzipStep dest fs e0 with
        | .halt f ns er t => (⟨f, ns, some er, t, []⟩ : UnzipOut)
        | .cont f nm t de =>
          let r := unzipEntries dest f rest
          ⟨r.fs, nm :: r.names, r.err, t ++ r.trace, de ++ r.dirErrs⟩ := rfl
    rcases hstep : unzipStep dest fs e0 with ⟨f, nm, t, de⟩ | ⟨f, ns, er, t⟩
    · have hspec := (unzipStep_spec dest fs e0).1 f nm t de hstep
      rw [hunfold, hstep]
      show openAfter (t ++ (unzipEntries dest f rest).trace) 0 = 0
      rcases hspec.2.2.1 with rfl | rfl
      · simpa using ih f (fun e he => h e (by simp [he]))
      · simp only [List.cons_append, List.nil_append, openAfter]
        simpa using ih f (fun e he => h e (by simp [he]))
    · have hspec := (unzipStep_spec dest fs e0).2 f ns er t hstep
      rw [hunfold, hstep]
      exact hspec.2.1 (h e0 (by simp))

/-- If the first `j` entries extract without error and entry `j` fails the
zip-slip check, the loop aborts there: the result is exactly the prefix run's
state and name list, together with the `IllegalPathError` naming the
offending resolved path.  Later entries are never processed and the prefix
run's effects are kept (no rollback). -/
theorem unzipEntries_abort (dest : String) (ents : List ZipEntry) (fs : FS)
    (j : Nat) (hj : j < ents.length)
    (hbad : ¬(goHasPrefix (resolvePath dest (ents.get ⟨j, hj⟩))
      (goPathClean dest ++ "/") = true))
    (hpre : (unzipEntries dest fs (ents.take j)).err = none) :
    unzipEntries dest fs ents =
      ⟨(unzipEntries dest fs (ents.take j)).fs,
       (unzipEntries dest fs (ents.take j)).names,
       some (.illegalPath (resolvePath dest (ents.get ⟨j, hj⟩))),
       (unzipEntries dest fs (ents.take j)).trace,
       (unzipEntries dest fs (ents.take j)).dirErrs⟩ := by
  induction ents generalizing fs j with
  | nil => exact absurd hj (by simp)
  | cons e0 rest ih =>
    cases j with
    | zero =>
      have hb : ¬(goHasPrefix (resolvePath dest e0) (goPathClean dest ++ "/") = true) := hbad
      have hstep : unzipStep dest fs e0 =
          .halt fs [] (.illegalPath (resolvePath dest e0)) [] := by
        unfold unzipStep
        rw [if_pos (by simpa using hb)]
      show (match unzipStep dest fs e0 with
        | .halt f ns er t => (⟨f, ns, some er, t, []⟩ : UnzipOut)
        | .cont f nm t de =>
          let r := unzipEntries dest f rest
          ⟨r.fs, nm :: r.names, r.err, t ++ r.trace, de ++ r.dirErrs⟩) = _
      rw [hstep]
      rfl
    | succ j =>
      have hunfold : ∀ (l : List ZipEntry), unzipEntries dest fs (e0 :: l) =
          match unzipStep dest fs e0 with
          | .halt f ns er t => (⟨f, ns, some er, t, []⟩ : UnzipOut)
          | .cont f nm t de =>
            let r := unzipEntries dest f l
            ⟨r.fs, nm :: r.names, r.err, t ++ r.trace, de ++ r.dirErrs⟩ :=
        fun _ => rfl
    -- take (j+1) (e0 :: rest) = e0 :: take j rest, so both runs share the head step
      have htake : (e0 :: rest).take (j + 1) = e0 :: rest.take j := rfl
      rw [htake] at hpre ⊢
      rcases hstep : unzipStep dest fs e0 with ⟨f, nm, t, de⟩ | ⟨f, ns, er, t⟩
      · have hcons : ∀ (l : List ZipEntry), unzipEntries dest fs (e0 :: l) =
            ⟨(unzipEntries dest f l).fs, nm :: (unzipEntries dest f l).names,
             (unzipEntries dest f l).err, t ++ (unzipEntries dest f l).trace,
             de ++ (unzipEntries dest f l).dirErrs⟩ := by
          intro l
          rw [hunfold l, hstep]
        rw [hcons (rest.take j)] at hpre
        have hpre2 : (unzipEntries dest f (rest.take j)).err = none := hpre
        have hj2 : j < rest.length := by simpa using hj
        have hrec := ih f j hj2 hbad hpre2
        rw [hcons rest, hcons (rest.take j), hrec]
        rfl
      · rw [hunfold (rest.take j), hstep] at hpre
        have hx : some er = (none : Option UZErr) := hpre
        exact Option.noConfusion hx

/-! ## The update orchestrator (`DownloadAndReplace` and `main`) -/

/-- The failure cases of a `DownloadAndReplace` run, in pipeline order. -/
inductive RunError where
  | downloadFailed
  | mkdirFailed
  | readDirFailed
  | cleanFailed (p : String)
  | unzipFailed (e : UZErr)
  | cleanupFailed
deriving DecidableEq

/-- Environment oracles for one `DownloadAndReplace` run: whether the download
request succeeds, whether `os.Mkdir` on the missing target succeeds, whether
`ioutil.ReadDir` succeeds, which paths `os.Remove`/`os.RemoveAll` fail on,
whether `zip.OpenReader` succeeds and whether the final `os.Remove` of
`dist.zip` succeeds. -/
structure IOOracles where
  downloadOk : Bool := true
  mkdirOk : Bool := true
  readDirOk : Bool := true
  removeFail : List String := []
  archiveOpenOk : Bool := true
  removeZipOk : Bool := true
deriving DecidableEq

/-- The child-removal loop of `DownloadAndReplace`: for every entry of the
`ReadDir` listing, `os.RemoveAll` for sub-directories and `os.Remove` for
files, aborting on the first failure (leaving the partially cleaned state). -/
def cleanChildren (dir : String) (removeFail : List String) :
    FS → List (String × Bool) → FS × Option RunError
  | fs, [] => (fs, none)
  | fs, c :: rest =>
    let filePath := goPathJoin dir c.1
    if filePath ∈ removeFail then (fs, some (.cleanFailed filePath))
    else if c.2 then cleanChildren dir removeFail (fs.removeAllUnder filePath) rest
    else if fs.containsKey filePath then
      cleanChildren dir removeFail (fs.removeKey filePath) rest
    else (fs, some (.cleanFailed filePath))

/-- The target-directory preparation step of `DownloadAndReplace`: `os.Stat`,
then either `os.Mkdir` on a missing target or the `ReadDir` + removal loop on
an existing one (`ReadDir` itself fails on a non-directory target). -/
def prepareDir (dir : String) (fs : FS) (mkdirOk readDirOk : Bool)
    (removeFail : List String) : FS × Option RunError :=
  if ¬(fs.containsKey dir = true) then
    if mkdirOk then (fs.insert dir .dir, none) else (fs, some .mkdirFailed)
  else if ¬(readDirOk = true ∧ fs.isDirAt dir = true) then (fs, some .readDirFailed)
  else cleanChildren dir removeFail fs (fs.readDir dir)

/-- `DownloadAndReplace` after a successful artifact selection: download the
archive to `dist.zip` (its bytes are not modelled; the parsed entries `ents`
are a separate parameter), prepare the target directory, extract, and finally
`os.Remove("dist.zip")` (which fails when the file is missing). -/
def downloadAndReplace (dir : String) (ents : List ZipEntry) (fs0 : FS)
    (o : IOOracles) : FS × Option RunError :=
  if ¬(o.downloadOk = true) then (fs0, some .downloadFailed)
  else
    let fs1 := fs0.insert "dist.zip" (.file [])
    let prep := prepareDir dir fs1 o.mkdirOk o.readDirOk o.removeFail
    match prep.2 with
    | some e => (prep.1, some e)
    | none =>
      let r := unzipGo dir ents prep.1 o.archiveOpenOk
      match r.err with
      | some e => (r.fs, some (.unzipFailed e))
      | none =>
        if o.removeZipOk = true ∧ r.fs.containsKey "dist.zip" = true then
          (r.fs.removeKey "dist.zip", none)
        else (r.fs, some .cleanupFailed)

/-! ## Artifacts, the catalog and the size formatter -/

/-- One artifact record of the registry listing (`artifact` in the source). -/
structure Artifact where
  id : Int := 0
  nodeId : String := ""
  name : String := ""
  sizeInBytes : Int := 0
  url : String := ""
  archiveDownloadURL : String := ""
  expired : Bool := false
  createdAt : String := ""
  updatedAt : String := ""
  expiresAt : String := ""
deriving DecidableEq

/-- The registry listing (`artifacts` in the source): the reported
`total_count` and the artifact sequence. -/
structure Artifacts where
  count : Int := 0
  artifacts : List Artifact := []
deriving DecidableEq

/-- `artifacts.HasArtifacts`. -/
def hasArtifactsGo (a : Artifacts) : Bool := decide (a.count > 0)

/-- The loop body of `artifacts.LatestActiveSherpaArtifact`: walk the
sequence in order and `break` on the first entry named `"sherpa4selfie"`
that is not expired. -/
def latestActiveLoop : List Artifact → Except String Artifact
  | [] => .error "no suitable artifacts found"
  | a :: rest =>
    if a.name = "sherpa4selfie" ∧ a.expired = false then .ok a
    else latestActiveLoop rest

/-- `artifacts.LatestActiveSherpaArtifact`. -/
def latestActiveSherpaArtifact (a : Artifacts) : Except String Artifact :=
  latestActiveLoop a.artifacts

/-- `artifact.Size`, over `ℚ` in place of `float64`.  The float divisions the
claims are about are exact in binary64 (division by a power of two of an
exactly representable operand), and the gigabyte branch's division happens on
Go `int` (truncated division, `Int.tdiv`) before the conversion to `float64`,
exactly as written here. -/
def sizeGo (a : Artifact) : ℚ × String :=
  if a.sizeInBytes > 1024 * 1024 * 1024 * 1024 then
    ((a.sizeInBytes : ℚ) / ((1024 * 1024 * 1024 * 1024 : Int) : ℚ), "terabytes")
  else if a.sizeInBytes > 1024 * 1024 * 1024 then
    (((Int.tdiv a.sizeInBytes (1024 * 1024 * 1024) : Int) : ℚ), "gigabytes")
  else if a.sizeInBytes > 1024 * 1024 then
    ((a.sizeInBytes : ℚ) / ((1024 * 1024 : Int) : ℚ), "megabytes")
  else if a.sizeInBytes > 1024 then
    ((a.sizeInBytes : ℚ) / ((1024 : Int) : ℚ), "kilobytes")
  else ((a.sizeInBytes : ℚ), "bytes")

/-! ## HTTP request construction (`Artifacts` and `DownloadFile` methods) -/

/-- The configuration struct (`updater` in the source). -/
structure Updater where
  repository : String
  token : String
  directory : String
deriving DecidableEq

def Updater.repositoryURL (u : Updater) : String :=
  "https://api.github.com/repos/" ++ u.repository ++ "/actions/artifacts"

/-- An `http.Request` as far as this program manipulates one. -/
structure GoRequest where
  method : String
  url : String
  headers : List (String × String)
deriving DecidableEq

/-- `updater.AddAuthorizationHeader`. -/
def Updater.addAuthorizationHeader (u : Updater) (r : GoRequest) : GoRequest :=
  { r with headers := r.headers ++ [("Authorization", "Bearer " ++ u.token)] }

/-- Outcome of a code fragment: a value, a returned `error`, or a runtime
panic (e.g. a nil-pointer dereference). -/
inductive Outcome (α : Type) where
  | ok (a : α)
  | goError (msg : String)
  | panicked
deriving DecidableEq

/-- `http.NewRequest`, as the pair Go returns: on success a request and nil
error, on failure a nil request (`none`) and an error.  `ok` is the oracle
for whether construction succeeds (it fails e.g. on an unparsable URL). -/
def httpNewRequest (method url : String) (ok : Bool) :
    Option GoRequest × Option String :=
  if ok then (some ⟨method, url, []⟩, none)
  else (none, some ("parse " ++ url ++ ": invalid request"))

/-- Calling `u.AddAuthorizationHeader(req)` on a possibly-nil `*http.Request`:
`req.Header.Add` dereferences the pointer, so a nil request panics. -/
def addHeaderOnPtr (u : Updater) : Option GoRequest → Outcome GoRequest
  | none => .panicked
  | some r => .ok (u.addAuthorizationHeader r)

/-- The request-construction prefix of `updater.Artifacts` (lines 41-46):
`http.NewRequest`, then `AddAuthorizationHeader`, and only then the check of
the construction error. -/
def artifactsRequestPhase (u : Updater) (newReqOk : Bool) : Outcome GoRequest :=
  let p := httpNewRequest "GET" u.repositoryURL newReqOk
  match addHeaderOnPtr u p.1 with
  | .panicked => .panicked
  | .goError m => .goError m
  | .ok r =>
    match p.2 with
    | some e => .goError e
    | none => .ok r

/-- The request-construction prefix of `updater.DownloadFile` (lines 77-81),
identical in shape. -/
def downloadRequestPhase (u : Updater) (url : String) (newReqOk : Bool) :
    Outcome GoRequest :=
  let p := httpNewRequest "GET" url newReqOk
  match addHeaderOnPtr u p.1 with
  | .panicked => .panicked
  | .goError m => .goError m
  | .ok r =>
    match p.2 with
    | some e => .goError e
    | none => .ok r

/-! ## `main` -/

/-- How one run of `main` ends. -/
inductive MainOutcome where
  | missingParams
  | fetchFailed
  | selectFailed
  | runFailed
  | noArtifacts
  | allDone
deriving DecidableEq

/-- Observable behaviour of one `main` run: the process exit code, whether
any network request was issued, whether the artifact download was attempted,
and the terminal state. -/
structure MainResult where
  exitCode : Nat
  networkAttempted : Bool
  downloadAttempted : Bool
  outcome : MainOutcome
deriving DecidableEq

/-- `flag.StringVar` resolution: the provided command-line value, or the
registered default when the flag is absent. -/
def resolveFlag (provided : Option String) (dflt : String) : String :=
  provided.getD dflt

/-- `main`: flag resolution with the source's defaults, the empty-parameter
check (plain `return`, exit code 0), the catalog fetch (`log.Fatal`, exit
code 1, on error), the `HasArtifacts` short-circuit, selection, and the
`DownloadAndReplace` run.  The fetch result and the selected artifact's
archive entries stand in for the network. -/
def mainGo (rOpt tOpt dOpt : Option String) (fetch : Except String Artifacts)
    (fs : FS) (ents : List ZipEntry) (o : IOOracles) : MainResult :=
  let repository := resolveFlag rOpt "pjotrsavitski/sherpa-helper"
  let token := resolveFlag tOpt ""
  let directory := resolveFlag dOpt "sherpa4selfie"
  if repository = "" ∨ token = "" ∨ directory = "" then
    ⟨0, false, false, .missingParams⟩
  else
    match fetch with
    | .error _ => ⟨1, true, false, .fetchFailed⟩
    | .ok data =>
      if hasArtifactsGo data then
        match latestActiveSherpaArtifact data with
        | .error _ => ⟨1, true, false, .selectFailed⟩
        | .ok _ =>
          match (downloadAndReplace directory ents fs o).2 with
          | some _ => ⟨1, true, true, .runFailed⟩
          | none => ⟨0, true, true, .allDone⟩
      else ⟨0, true, false, .noArtifacts⟩

/-! ## Resource traces of `Artifacts` and `DownloadFile` -/

/-- Acquisition/release events for the network response body and the local
output file of one HTTP helper call. -/
inductive REvent where
  | openBody
  | closeBody
  | openFile
  | closeFile
deriving DecidableEq

/-- `updater.Artifacts` with its resource trace.  The `defer
resp.Body.Close()` is registered only after the `client.Do` error check (when
`resp` is non-nil) and runs at every return, so every path that acquired the
body emits `closeBody` at its end. -/
def artifactsGo (u : Updater) (newReqOk doOk : Bool) (status : Int)
    (readOk decodeOk : Bool) (payload : Artifacts) :
    Outcome Artifacts × List REvent :=
  let p := httpNewRequest "GET" u.repositoryURL newReqOk
  match addHeaderOnPtr u p.1 with
  | .panicked => (.panicked, [])
  | .goError m => (.goError m, [])
  | .ok _ =>
    match p.2 with
    | some e => (.goError e, [])
    | none =>
      if ¬(doOk = true) then (.goError "transport error", [])
      else if ¬(status = 200) then
        (.goError "received non 200 response code", [.openBody, .closeBody])
      else if ¬(readOk = true) then
        (.goError "read error", [.openBody, .closeBody])
      else if ¬(decodeOk = true) then
        (.goError "unmarshal error", [.openBody, .closeBody])
      else (.ok payload, [.openBody, .closeBody])

/-- `updater.DownloadFile` with its resource trace.  Both the response body
and the created file are released by `defer`s, which run in LIFO order at
every return after their registration. -/
def downloadFileGo (u : Updater) (url : String) (newReqOk doOk : Bool)
    (status : Int) (createOk copyOk : Bool) : Outcome Unit × List REvent :=
  let p := httpNewRequest "GET" url newReqOk
  match addHeaderOnPtr u p.1 with
  | .panicked => (.panicked, [])
  | .goError m => (.goError m, [])
  | .ok _ =>
    match p.2 with
    | some e => (.goError e, [])
    | none =>
      if ¬(doOk = true) then (.goError "transport error", [])
      else if ¬(status = 200) then
        (.goError "received non 200 response code", [.openBody, .closeBody])
      else if ¬(createOk = true) then
        (.goError "create error", [.openBody, .closeBody])
      else if ¬(copyOk = true) then
        (.goError "copy error", [.openBody, .openFile, .closeFile, .closeBody])
      else (.ok (), [.openBody, .openFile, .closeFile, .closeBody])

/-- Every resource acquired during the call was released before it returned. -/
def closedAtReturn (tr : List REvent) : Bool :=
  decide (tr.count .openBody = tr.count .closeBody) &&
  decide (tr.count .openFile = tr.count .closeFile)

/-! ## Claim C2 -/

theorem latestActiveLoop_eq_find (l : List Artifact) :
    latestActiveLoop l =
      match l.find? (fun x => decide (x.name = "sherpa4selfie") && !x.expired) with
      | some x => .ok x
      | none => .error "no suitable artifacts found" := by
  induction l with
  | nil => rfl
  | cons x rest ih =>
    by_cases h1 : x.name = "sherpa4selfie" ∧ x.expired = false
    · have hb : (decide (x.name = "sherpa4selfie") && !x.expired) = true := by
        simp [h1.1, h1.2]
      rw [@List.find?_cons_of_pos Artifact
        (fun x => decide (x.name = "sherpa4selfie") && !x.expired) x rest hb]
      show (if x.name = "sherpa4selfie" ∧ x.expired = false then Except.ok x
        else latestActiveLoop rest) = _
      rw [if_pos h1]
    · have hb : ¬((decide (x.name = "sherpa4selfie") && !x.expired) = true) := by
        intro hcon
        rcases Bool.and_eq_true_iff.mp hcon with ⟨ha, hb2⟩
        exact h1 ⟨of_decide_eq_true ha, by simpa using hb2⟩
      rw [@List.find?_cons_of_neg Artifact
        (fun x => decide (x.name = "sherpa4selfie") && !x.expired) x rest hb]
      show (if x.name = "sherpa4selfie" ∧ x.expired = false then Except.ok x
        else latestActiveLoop rest) = _
      rw [if_neg h1]
      exact ih

/-- Claim C2 (amended): `LatestActiveSherpaArtifact` scans the sequence in the
order received and returns the first entry whose name is exactly
`"sherpa4selfie"` and whose expired flag is false; when no entry qualifies it
fails with the fixed error message `"no suitable artifacts found"`, which does
not include the searched name. -/
theorem c2_first_match_selection (a : Artifacts) :
    latestActiveSherpaArtifact a =
      (match a.artifacts.find?
          (fun x => decide (x.name = "sherpa4selfie") && !x.expired) with
        | some x => .ok x
        | none => .error "no suitable artifacts found") ∧
    hasSub "sherpa4selfie".data "no suitable artifacts found".data = false :=
  ⟨latestActiveLoop_eq_find a.artifacts, by decide⟩

/-- Claim C2, counterexample to the claim as stated: on a catalog with no
qualifying entry the error is the fixed string `"no suitable artifacts
found"`, and the searched name `"sherpa4selfie"` does not occur in it — the
error does not carry the searched name. -/
theorem c2_counterexample :
    latestActiveSherpaArtifact
        ⟨2, [{ name := "x" }, { name := "sherpa4selfie", expired := true }]⟩ =
      .error "no suitable artifacts found" ∧
    hasSub "sherpa4selfie".data "no suitable artifacts found".data = false :=
  ⟨rfl, by decide⟩

/-! ## Claim C3 -/

/-- Claim C3: `HasArtifacts` is true iff the reported count is positive,
whatever the artifact sequence is; and on a catalog with `count = 0` (with all
three parameters non-empty so the run proceeds) `main` ends in the
"no artifacts" terminal state with exit code 0 and never attempts a
download. -/
theorem c3_has_artifacts_count (rOpt tOpt dOpt : Option String)
    (data : Artifacts) (fs : FS) (ents : List ZipEntry) (o : IOOracles)
    (hr : ¬(resolveFlag rOpt "pjotrsavitski/sherpa-helper" = ""))
    (ht : ¬(resolveFlag tOpt "" = ""))
    (hd : ¬(resolveFlag dOpt "sherpa4selfie" = ""))
    (hcount : data.count = 0) :
    (∀ (c : Int) (l l2 : List Artifact),
       (hasArtifactsGo ⟨c, l⟩ = true ↔ 0 < c) ∧
       hasArtifactsGo ⟨c, l⟩ = hasArtifactsGo ⟨c, l2⟩) ∧
    mainGo rOpt tOpt dOpt (.ok data) fs ents o = ⟨0, true, false, .noArtifacts⟩ := by
  constructor
  · intro c l l2
    constructor
    · simp [hasArtifactsGo]
    · rfl
  · have hno : hasArtifactsGo data = false := by
      simp [hasArtifactsGo, hcount]
    unfold mainGo
    rw [if_neg (by push_neg; exact ⟨hr, ht, hd⟩)]
    simp only [hno]
    rfl

/-- Claim C3, witness: a catalog reporting `count = 0` while actually holding
one artifact still short-circuits to the "no artifacts" terminal state. -/
theorem c3_witness :
    mainGo (some "o/r") (some "tok") (some "out")
        (.ok ⟨0, [{ name := "sherpa4selfie" }]⟩) ⟨[]⟩ [] {} =
      ⟨0, true, false, .noArtifacts⟩ :=
  (c3_has_artifacts_count (some "o/r") (some "tok") (some "out")
    ⟨0, [{ name := "sherpa4selfie" }]⟩ ⟨[]⟩ [] {}
    (by decide) (by decide) (by decide) rfl).2

/-! ## Claim C7 -/

/-- Claim C7 (amended): if any of the three flag values after default
resolution is empty — which, given the non-empty defaults for the repository
and the directory, can only happen for an explicitly empty flag or for the
token, whose default is the empty string — `main` stops before any network
activity, but by a plain `return` after printing a message, so the process
exit code is 0, not non-zero. -/
theorem c7_missing_params_abort (rOpt tOpt dOpt : Option String)
    (fetch : Except String Artifacts) (fs : FS) (ents : List ZipEntry)
    (o : IOOracles)
    (h : resolveFlag rOpt "pjotrsavitski/sherpa-helper" = "" ∨
      resolveFlag tOpt "" = "" ∨ resolveFlag dOpt "sherpa4selfie" = "") :
    mainGo rOpt tOpt dOpt fetch fs ents o = ⟨0, false, false, .missingParams⟩ := by
  unfold mainGo
  rw [if_pos h]

/-- Claim C7, witness: invoking with no flags at all leaves the token empty,
and the run aborts before any network activity with exit code 0. -/
theorem c7_witness :
    mainGo none none none (.error "boom") ⟨[]⟩ [] {} =
      ⟨0, false, false, .missingParams⟩ :=
  c7_missing_params_abort none none none (.error "boom") ⟨[]⟩ [] {}
    (Or.inr (Or.inl rfl))

/-- Claim C7, counterexample to the claim as stated: with all three options
missing the program does abort early, but its exit status is 0 (the claim
requires non-zero); and with only the token provided — repository and
directory both missing — the program does not abort at all and proceeds to
network activity, because those two flags have non-empty defaults. -/
theorem c7_counterexample :
    (mainGo none none none (.error "boom") ⟨[]⟩ [] {}).exitCode = 0 ∧
    (mainGo none none none (.error "boom") ⟨[]⟩ [] {}).outcome = .missingParams ∧
    (mainGo none (some "tok") none (.error "boom") ⟨[]⟩ [] {}).networkAttempted
      = true :=
  ⟨rfl, rfl, rfl⟩

/-! ## Claim C9 -/

/-- Claim C9: in both `Artifacts` and `DownloadFile` the authorization header
is added to the request before the `http.NewRequest` error is checked; when
request construction fails (nil request plus error), the call panics on the
nil dereference instead of returning that error, and when it succeeds the
header is attached to the fresh request. -/
theorem c9_header_before_error_check (u : Updater) (url : String) :
    artifactsRequestPhase u false = .panicked ∧
    downloadRequestPhase u url false = .panicked ∧
    (∀ msg, ¬(artifactsRequestPhase u false = .goError msg)) ∧
    (∀ msg, ¬(downloadRequestPhase u url false = .goError msg)) ∧
    artifactsRequestPhase u true =
      .ok (u.addAuthorizationHeader ⟨"GET", u.repositoryURL, []⟩) ∧
    downloadRequestPhase u url true =
      .ok (u.addAuthorizationHeader ⟨"GET", url, []⟩) :=
  ⟨rfl, rfl, fun _ h => Outcome.noConfusion h, fun _ h => Outcome.noConfusion h,
    rfl, rfl⟩

/-! ## Claim C10 -/

/-- Claim C10: for `1024^3 < n ≤ 1024^4` the magnitude is
`float64(n / (1024*1024*1024))` computed with Go's truncating integer
division (`Int.tdiv`) paired with `"gigabytes"`, while the kilobyte, megabyte
and terabyte branches divide in floating point (exact rational division here)
and can return fractional magnitudes. -/
theorem c10_gigabytes_integer_division (a : Artifact) :
    (1024 ^ 3 < a.sizeInBytes → a.sizeInBytes ≤ 1024 ^ 4 →
      sizeGo a = (((Int.tdiv a.sizeInBytes (1024 * 1024 * 1024) : Int) : ℚ),
        "gigabytes")) ∧
    (1024 ^ 2 < a.sizeInBytes → a.sizeInBytes ≤ 1024 ^ 3 →
      sizeGo a = ((a.sizeInBytes : ℚ) / ((1024 * 1024 : Int) : ℚ), "megabytes")) ∧
    (1024 < a.sizeInBytes → a.sizeInBytes ≤ 1024 ^ 2 →
      sizeGo a = ((a.sizeInBytes : ℚ) / ((1024 : Int) : ℚ), "kilobytes")) ∧
    (1024 ^ 4 < a.sizeInBytes →
      sizeGo a = ((a.sizeInBytes : ℚ) /
        ((1024 * 1024 * 1024 * 1024 : Int) : ℚ), "terabytes")) := by
  have e2 : (1024 ^ 2 : Int) = 1024 * 1024 := by norm_num
  have e3 : (1024 ^ 3 : Int) = 1024 * 1024 * 1024 := by norm_num
  have e4 : (1024 ^ 4 : Int) = 1024 * 1024 * 1024 * 1024 := by norm_num
  refine ⟨?_, ?_, ?_, ?_⟩
  · intro h1 h2
    rw [e3] at h1; rw [e4] at h2
    unfold sizeGo
    rw [if_neg (by omega), if_pos (by omega)]
  · intro h1 h2
    rw [e2] at h1; rw [e3] at h2
    unfold sizeGo
    rw [if_neg (by omega), if_neg (by omega), if_pos (by omega)]
  · intro h1 h2
    rw [e2] at h2
    unfold sizeGo
    rw [if_neg (by omega), if_neg (by omega), if_neg (by omega), if_pos (by omega)]
  · intro h1
    rw [e4] at h1
    unfold sizeGo
    rw [if_pos (by omega)]

/-- Claim C10, witness: `1024^3 + 1` bytes lands in the gigabyte branch with
the truncating integer quotient, and `1024^2 + 1` bytes lands in the megabyte
branch with the exact (fractional) quotient. -/
theorem c10_witness :
    sizeGo { sizeInBytes := 1073741825 } =
      (((Int.tdiv (1073741825 : Int) (1024 * 1024 * 1024) : Int) : ℚ),
        "gigabytes") ∧
    sizeGo { sizeInBytes := 1048577 } =
      (((1048577 : Int) : ℚ) / ((1024 * 1024 : Int) : ℚ), "megabytes") :=
  ⟨(c10_gigabytes_integer_division { sizeInBytes := 1073741825 }).1
      (by norm_num) (by norm_num),
   (c10_gigabytes_integer_division { sizeInBytes := 1048577 }).2.1
      (by norm_num) (by norm_num)⟩

/-! ## Claim C8 -/

/-- Claim C8 (amended): during extraction at most one per-entry output file
is ever open, and each is closed before the next entry is processed; every
response body and file handle of `Artifacts` and `DownloadFile` is released
(by `defer`) before the function returns on every path; and the extraction
loop closes every output file handle before returning provided no file
entry's `f.Open` fails — when `f.Open` does fail, the just-opened output file
handle is the one exception (see the counterexample). -/
theorem c8_handle_discipline (dest : String) (ents : List ZipEntry) (fs : FS)
    (openOk : Bool) (u : Updater) (url : String) (newReqOk doOk : Bool)
    (status : Int) (readOk decodeOk createOk copyOk : Bool)
    (payload : Artifacts) :
    maxOpenFrom (unzipGo dest ents fs openOk).trace 0 ≤ 1 ∧
    ((∀ e, e ∈ ents → e.isDir = false → e.entryOpenOk = true) →
      openAfter (unzipGo dest ents fs openOk).trace 0 = 0) ∧
    closedAtReturn
      (artifactsGo u newReqOk doOk status readOk decodeOk payload).2 = true ∧
    closedAtReturn
      (downloadFileGo u url newReqOk doOk status createOk copyOk).2 = true := by
  refine ⟨?_, ?_, ?_, ?_⟩
  · cases openOk
    · simp [unzipGo, maxOpenFrom]
    · simpa [unzipGo] using unzipEntries_trace_max dest ents fs
  · intro h
    cases openOk
    · simp [unzipGo, openAfter]
    · simpa [unzipGo] using unzipEntries_trace_balanced dest ents fs h
  · by_cases hs : status = 200 <;>
      cases newReqOk <;> cases doOk <;> cases readOk <;> cases decodeOk <;>
      simp [artifactsGo, httpNewRequest, addHeaderOnPtr, closedAtReturn, hs]
  · by_cases hs : status = 200 <;>
      cases newReqOk <;> cases doOk <;> cases createOk <;> cases copyOk <;>
      simp [downloadFileGo, httpNewRequest, addHeaderOnPtr, closedAtReturn, hs]

/-- Claim C8, witness: on an archive whose entries all stream without error,
every output handle is closed at return. -/
theorem c8_witness :
    openAfter (unzipGo "out" [⟨"a.txt", false, [97], true, true, true⟩]
      ⟨[("out", FNode.dir)]⟩ true).trace 0 = 0 :=
  (c8_handle_discipline "out" [⟨"a.txt", false, [97], true, true, true⟩]
    ⟨[("out", FNode.dir)]⟩ true ⟨"r", "t", "d"⟩ "u" true true 200 true true
    true true ⟨0, []⟩).2.1 (by decide)

/-- Claim C8, counterexample to the claim as stated: if `f.Open` fails for an
entry after `os.OpenFile` succeeded, `unzip` returns with the output file
handle still open — one handle is not closed before the function that opened
it returns. -/
theorem c8_counterexample :
    openAfter (unzipGo "out" [⟨"a.txt", false, [97], true, false, true⟩]
      ⟨[("out", FNode.dir)]⟩ true).trace 0 = 1 ∧
    (unzipGo "out" [⟨"a.txt", false, [97], true, false, true⟩]
      ⟨[("out", FNode.dir)]⟩ true).trace = [.openOut "out/a.txt"] ∧
    (unzipGo "out" [⟨"a.txt", false, [97], true, false, true⟩]
      ⟨[("out", FNode.dir)]⟩ true).err = some (.entryOpenFailed "out/a.txt") := by
  refine ⟨by decide, by decide, by decide⟩

/-! ## Path equations for `DownloadAndReplace` and preservation lemmas -/

theorem dAR_download_fail (dir : String) (ents : List ZipEntry) (fs0 : FS)
    (o : IOOracles) (h : o.downloadOk = false) :
    downloadAndReplace dir ents fs0 o = (fs0, some .downloadFailed) := by
  unfold downloadAndReplace
  rw [if_pos (by simp [h])]

theorem dAR_prep_fail (dir : String) (ents : List ZipEntry) (fs0 : FS)
    (o : IOOracles) (e : RunError) (h1 : o.downloadOk = true)
    (h2 : (prepareDir dir (fs0.insert "dist.zip" (.file []))
      o.mkdirOk o.readDirOk o.removeFail).2 = some e) :
    downloadAndReplace dir ents fs0 o =
      ((prepareDir dir (fs0.insert "dist.zip" (.file []))
        o.mkdirOk o.readDirOk o.removeFail).1, some e) := by
  unfold downloadAndReplace
  rw [if_neg (by simp [h1])]
  simp only [h2]

theorem dAR_unzip_fail (dir : String) (ents : List ZipEntry) (fs0 : FS)
    (o : IOOracles) (ue : UZErr) (h1 : o.downloadOk = true)
    (h2 : (prepareDir dir (fs0.insert "dist.zip" (.file []))
      o.mkdirOk o.readDirOk o.removeFail).2 = none)
    (h3 : (unzipGo dir ents (prepareDir dir (fs0.insert "dist.zip" (.file []))
      o.mkdirOk o.readDirOk o.removeFail).1 o.archiveOpenOk).err = some ue) :
    downloadAndReplace dir ents fs0 o =
      ((unzipGo dir ents (prepareDir dir (fs0.insert "dist.zip" (.file []))
        o.mkdirOk o.readDirOk o.removeFail).1 o.archiveOpenOk).fs,
       some (.unzipFailed ue)) := by
  unfold downloadAndReplace
  rw [if_neg (by simp [h1])]
  simp only [h2, h3]

theorem dAR_cleanup_fail (dir : String) (ents : List ZipEntry) (fs0 : FS)
    (o : IOOracles) (h1 : o.downloadOk = true)
    (h2 : (prepareDir dir (fs0.insert "dist.zip" (.file []))
      o.mkdirOk o.readDirOk o.removeFail).2 = none)
    (h3 : (unzipGo dir ents (prepareDir dir (fs0.insert "dist.zip" (.file []))
      o.mkdirOk o.readDirOk o.removeFail).1 o.archiveOpenOk).err = none)
    (h4 : ¬(o.removeZipOk = true ∧
      (unzipGo dir ents (prepareDir dir (fs0.insert "dist.zip" (.file []))
        o.mkdirOk o.readDirOk o.removeFail).1 o.archiveOpenOk).fs.containsKey
        "dist.zip" = true)) :
    downloadAndReplace dir ents fs0 o =
      ((unzipGo dir ents (prepareDir dir (fs0.insert "dist.zip" (.file []))
        o.mkdirOk o.readDirOk o.removeFail).1 o.archiveOpenOk).fs,
       some .cleanupFailed) := by
  unfold downloadAndReplace
  rw [if_neg (by simp [h1])]
  simp only [h2, h3]
  rw [if_neg h4]

theorem dAR_success (dir : String) (ents : List ZipEntry) (fs0 : FS)
    (o : IOOracles) (h1 : o.downloadOk = true)
    (h2 : (prepareDir dir (fs0.insert "dist.zip" (.file []))
      o.mkdirOk o.readDirOk o.removeFail).2 = none)
    (h3 : (unzipGo dir ents (prepareDir dir (fs0.insert "dist.zip" (.file []))
      o.mkdirOk o.readDirOk o.removeFail).1 o.archiveOpenOk).err = none)
    (h4 : o.removeZipOk = true ∧
      (unzipGo dir ents (prepareDir dir (fs0.insert "dist.zip" (.file []))
        o.mkdirOk o.readDirOk o.removeFail).1 o.archiveOpenOk).fs.containsKey
        "dist.zip" = true) :
    downloadAndReplace dir ents fs0 o =
      ((unzipGo dir ents (prepareDir dir (fs0.insert "dist.zip" (.file []))
        o.mkdirOk o.readDirOk o.removeFail).1 o.archiveOpenOk).fs.removeKey
        "dist.zip", none) := by
  unfold downloadAndReplace
  rw [if_neg (by simp [h1])]
  simp only [h2, h3]
  rw [if_pos h4]

/-- The removal loop never touches a node that is neither a listed child's
path nor under one. -/
theorem cleanChildren_lookup_pres (dir : String) (rf : List String)
    (listing : List (String × Bool)) (fs : FS) (K : String)
    (h : ∀ c, c ∈ listing → ¬(K = goPathJoin dir c.1) ∧
      ((goPathJoin dir c.1 ++ "/").data.isPrefixOf K.data) = false) :
    (cleanChildren dir rf fs listing).1.lookup K = fs.lookup K := by
  induction listing generalizing fs with
  | nil => rfl
  | cons c rest ih =>
    have hc := h c (by simp)
    show (if goPathJoin dir c.1 ∈ rf then
        (fs, some (.cleanFailed (goPathJoin dir c.1)))
      else if c.2 then
        cleanChildren dir rf (fs.removeAllUnder (goPathJoin dir c.1)) rest
      else if fs.containsKey (goPathJoin dir c.1) then
        cleanChildren dir rf (fs.removeKey (goPathJoin dir c.1)) rest
      else (fs, some (.cleanFailed (goPathJoin dir c.1)))).1.lookup K = fs.lookup K
    by_cases h1 : goPathJoin dir c.1 ∈ rf
    · rw [if_pos h1]
    · rw [if_neg h1]
      by_cases h2 : c.2
      · rw [if_pos h2]
        rw [ih _ (fun c2 hc2 => h c2 (by simp [hc2]))]
        exact FS.lookup_removeAllUnder_of_notMatch fs _ K hc.1
          (by rw [hc.2]; exact Bool.false_ne_true)
      · rw [if_neg h2]
        by_cases h3 : fs.containsKey (goPathJoin dir c.1) = true
        · rw [if_pos h3]
          rw [ih _ (fun c2 hc2 => h c2 (by simp [hc2]))]
          exact FS.lookup_removeKey fs _ K hc.1
        · rw [if_neg (by simpa using h3)]

/-- `prepareDir` never removes a node that does not lie under the target
directory (the listing's join paths all lie under it). -/
theorem prepareDir_preserves (dir : String) (fs1 : FS) (mk rd : Bool)
    (rf : List String) (K : String)
    (hjp : ∀ c, c ∈ fs1.readDir dir →
      goHasPrefix (goPathJoin dir c.1) (dir ++ "/") = true)
    (hK : ((dir ++ "/").data.isPrefixOf K.data) = false)
    (hcon : fs1.containsKey K = true) :
    (prepareDir dir fs1 mk rd rf).1.containsKey K = true := by
  unfold prepareDir
  by_cases h1 : fs1.containsKey dir = true
  · rw [if_neg (by simpa using h1)]
    by_cases h2 : rd = true ∧ fs1.isDirAt dir = true
    · rw [if_neg (by simpa using h2)]
      have hlook : (cleanChildren dir rf fs1 (fs1.readDir dir)).1.lookup K =
          fs1.lookup K := by
        refine cleanChildren_lookup_pres dir rf _ fs1 K ?_
        intro c hc
        have hpre : (dir ++ "/").data <+: (goPathJoin dir c.1).data :=
          List.isPrefixOf_iff_prefix.mp (hjp c hc)
        constructor
        · rintro rfl
          have hcontra := List.isPrefixOf_iff_prefix.mpr hpre
          rw [hK] at hcontra
          exact Bool.noConfusion hcontra
        · by_cases hx : ((goPathJoin dir c.1 ++ "/").data.isPrefixOf K.data) = true
          · exfalso
            have h5 : (goPathJoin dir c.1 ++ "/").data <+: K.data :=
              List.isPrefixOf_iff_prefix.mp hx
            have h6 : (goPathJoin dir c.1).data <+: (goPathJoin dir c.1 ++ "/").data := by
              rw [String.data_append]
              exact List.prefix_append _ _
            have h7 : (dir ++ "/").data <+: K.data :=
              (hpre.trans h6).trans h5
            have h8 : ((dir ++ "/").data.isPrefixOf K.data) = true :=
              List.isPrefixOf_iff_prefix.mpr h7
            rw [h8] at hK
            exact Bool.noConfusion hK
          · cases hval : ((goPathJoin dir c.1 ++ "/").data.isPrefixOf K.data)
            · rfl
            · exact absurd hval hx
      simp only [FS.containsKey] at hcon ⊢
      rw [hlook]
      exact hcon
    · rw [if_pos (by simpa using h2)]
      exact hcon
  · rw [if_pos (by simpa using h1)]
    by_cases h2 : mk = true
    · simp only [h2, if_true]
      exact FS.insert_contains_mono fs1 dir .dir K hcon
    · rw [if_neg h2]
      exact hcon

theorem unzipGo_contains_mono (dest : String) (ents : List ZipEntry) (fs : FS)
    (openOk : Bool) (k : String) (h : fs.containsKey k = true) :
    (unzipGo dest ents fs openOk).fs.containsKey k = true := by
  unfold unzipGo
  by_cases ho : openOk = true
  · rw [if_neg (by simpa using ho)]
    exact unzipEntries_contains_mono dest ents fs k h
  · rw [if_pos (by simpa using ho)]
    exact h

/-! ## Claim C6 -/

/-- Claim C6: the temporary archive `dist.zip` is deleted only on the success
path, after extraction has completed (the final state is exactly the
post-extraction state minus `dist.zip`); on a run failing during directory
preparation or during extraction it is left in place with no cleanup; and
when the deletion itself fails the run fails with the cleanup error while the
completed extraction is left fully intact. -/
theorem c6_temp_archive_lifecycle (dir : String) (ents : List ZipEntry)
    (fs0 : FS) (o : IOOracles)
    (hdz : ((dir ++ "/").data.isPrefixOf "dist.zip".data) = false)
    (hjp : ∀ c, c ∈ (fs0.insert "dist.zip" (.file [])).readDir dir →
      goHasPrefix (goPathJoin dir c.1) (dir ++ "/") = true) :
    ((downloadAndReplace dir ents fs0 o).2 = none →
      (downloadAndReplace dir ents fs0 o).1.containsKey "dist.zip" = false ∧
      (downloadAndReplace dir ents fs0 o).1 =
        (unzipGo dir ents (prepareDir dir (fs0.insert "dist.zip" (.file []))
          o.mkdirOk o.readDirOk o.removeFail).1 o.archiveOpenOk).fs.removeKey
          "dist.zip") ∧
    (∀ e, o.downloadOk = true →
      (prepareDir dir (fs0.insert "dist.zip" (.file []))
        o.mkdirOk o.readDirOk o.removeFail).2 = some e →
      (downloadAndReplace dir ents fs0 o).2 = some e ∧
      (downloadAndReplace dir ents fs0 o).1.containsKey "dist.zip" = true) ∧
    (∀ ue, o.downloadOk = true →
      (prepareDir dir (fs0.insert "dist.zip" (.file []))
        o.mkdirOk o.readDirOk o.removeFail).2 = none →
      (unzipGo dir ents (prepareDir dir (fs0.insert "dist.zip" (.file []))
        o.mkdirOk o.readDirOk o.removeFail).1 o.archiveOpenOk).err = some ue →
      (downloadAndReplace dir ents fs0 o).2 = some (.unzipFailed ue) ∧
      (downloadAndReplace dir ents fs0 o).1.containsKey "dist.zip" = true) ∧
    (o.downloadOk = true →
      (prepareDir dir (fs0.insert "dist.zip" (.file []))
        o.mkdirOk o.readDirOk o.removeFail).2 = none →
      (unzipGo dir ents (prepareDir dir (fs0.insert "dist.zip" (.file []))
        o.mkdirOk o.readDirOk o.removeFail).1 o.archiveOpenOk).err = none →
      o.removeZipOk = false →
      (downloadAndReplace dir ents fs0 o).2 = some .cleanupFailed ∧
      (downloadAndReplace dir ents fs0 o).1 =
        (unzipGo dir ents (prepareDir dir (fs0.insert "dist.zip" (.file []))
          o.mkdirOk o.readDirOk o.removeFail).1 o.archiveOpenOk).fs ∧
      (downloadAndReplace dir ents fs0 o).1.containsKey "dist.zip" = true) := by
  have hfs1 : (fs0.insert "dist.zip" (.file [])).containsKey "dist.zip" = true :=
    FS.contains_of_lookup_some _ _ _ (FS.lookup_insert_self fs0 "dist.zip" _)
  have hprepk : (prepareDir dir (fs0.insert "dist.zip" (.file []))
      o.mkdirOk o.readDirOk o.removeFail).1.containsKey "dist.zip" = true :=
    prepareDir_preserves dir _ o.mkdirOk o.readDirOk o.removeFail "dist.zip"
      hjp hdz hfs1
  have hrk : (unzipGo dir ents (prepareDir dir (fs0.insert "dist.zip" (.file []))
      o.mkdirOk o.readDirOk o.removeFail).1 o.archiveOpenOk).fs.containsKey
      "dist.zip" = true :=
    unzipGo_contains_mono dir ents _ o.archiveOpenOk "dist.zip" hprepk
  refine ⟨?_, ?_, ?_, ?_⟩
  · intro hrun
    by_cases h1 : o.downloadOk = true
    · rcases hp : (prepareDir dir (fs0.insert "dist.zip" (.file []))
          o.mkdirOk o.readDirOk o.removeFail).2 with _ | e
      · rcases hr : (unzipGo dir ents (prepareDir dir
            (fs0.insert "dist.zip" (.file []))
            o.mkdirOk o.readDirOk o.removeFail).1 o.archiveOpenOk).err with _ | ue
        · by_cases h4 : o.removeZipOk = true ∧
              (unzipGo dir ents (prepareDir dir (fs0.insert "dist.zip" (.file []))
                o.mkdirOk o.readDirOk o.removeFail).1
                o.archiveOpenOk).fs.containsKey "dist.zip" = true
          · rw [dAR_success dir ents fs0 o h1 hp hr h4]
            exact ⟨by simp [FS.containsKey, FS.lookup_removeKey_self], rfl⟩
          · rw [dAR_cleanup_fail dir ents fs0 o h1 hp hr h4] at hrun
            exact absurd hrun (by simp)
        · rw [dAR_unzip_fail dir ents fs0 o ue h1 hp hr] at hrun
          exact absurd hrun (by simp)
      · rw [dAR_prep_fail dir ents fs0 o e h1 hp] at hrun
        exact absurd hrun (by simp)
    · rw [dAR_download_fail dir ents fs0 o (by simpa using h1)] at hrun
      exact absurd hrun (by simp)
  · intro e h1 hp
    rw [dAR_prep_fail dir ents fs0 o e h1 hp]
    exact ⟨rfl, hprepk⟩
  · intro ue h1 hp hr
    rw [dAR_unzip_fail dir ents fs0 o ue h1 hp hr]
    exact ⟨rfl, hrk⟩
  · intro h1 hp hr hz
    have h4 : ¬(o.removeZipOk = true ∧
        (unzipGo dir ents (prepareDir dir (fs0.insert "dist.zip" (.file []))
          o.mkdirOk o.readDirOk o.removeFail).1
          o.archiveOpenOk).fs.containsKey "dist.zip" = true) := by
      rintro ⟨hz2, _⟩
      rw [hz] at hz2
      exact Bool.noConfusion hz2
    rw [dAR_cleanup_fail dir ents fs0 o h1 hp hr h4]
    exact ⟨rfl, rfl, hrk⟩

/-- Claim C6, witness: on a concrete run, after success `dist.zip` is gone
and the final state is the post-extraction state minus the archive; with a
failing final removal the run reports the cleanup error and keeps the
extraction intact with `dist.zip` still present. -/
theorem c6_witness :
    ((downloadAndReplace "out"
        [⟨"a.txt", false, [97], true, true, true⟩]
        ⟨[("out", FNode.dir), ("out/old.txt", FNode.file [1])]⟩ {}).1.containsKey
        "dist.zip" = false) ∧
    ((downloadAndReplace "out"
        [⟨"a.txt", false, [97], true, true, true⟩]
        ⟨[("out", FNode.dir), ("out/old.txt", FNode.file [1])]⟩
        { removeZipOk := false }).2 = some .cleanupFailed) := by
  constructor
  · exact ((c6_temp_archive_lifecycle "out"
      [⟨"a.txt", false, [97], true, true, true⟩]
      ⟨[("out", FNode.dir), ("out/old.txt", FNode.file [1])]⟩ {}
      (by decide) (by decide)).1 (by decide)).1
  · exact ((c6_temp_archive_lifecycle "out"
      [⟨"a.txt", false, [97], true, true, true⟩]
      ⟨[("out", FNode.dir), ("out/old.txt", FNode.file [1])]⟩
      { removeZipOk := false }
      (by decide) (by decide)).2.2.2 rfl (by decide) (by decide) rfl).1

/-! ## Claim C1 -/

/-- Claim C1: if entry `j` of the archive resolves to a destination path that
does not have the cleaned destination plus a trailing separator as a strict
prefix (while the earlier entries extracted without error), `unzip` aborts at
that entry with the `illegal file path` error naming the offending path: the
result is exactly the prefix run's state and name list — no later entry is
processed, nothing is created for the offending entry, and the files already
extracted are kept in place (no rollback).  Moreover every key the run
created lies under the cleaned destination (the `chainOkB` hypothesis pins
down the parent-directory chains; it holds whenever the destination's parent
chain exists beforehand). -/
theorem c1_zip_slip_abort (dest : String) (ents : List ZipEntry) (fs : FS)
    (j : Nat) (hj : j < ents.length)
    (hbad : goHasPrefix (resolvePath dest (ents.get ⟨j, hj⟩))
      (goPathClean dest ++ "/") = false)
    (hpre : (unzipEntries dest fs (ents.take j)).err = none)
    (hchain : ∀ e, e ∈ ents.take j →
      chainOkB fs (goPathClean dest) (mkTarget dest e) = true) :
    unzipGo dest ents fs true =
      ⟨(unzipEntries dest fs (ents.take j)).fs,
       (unzipEntries dest fs (ents.take j)).names,
       some (.illegalPath (resolvePath dest (ents.get ⟨j, hj⟩))),
       (unzipEntries dest fs (ents.take j)).trace,
       (unzipEntries dest fs (ents.take j)).dirErrs⟩ ∧
    (∀ k, (unzipGo dest ents fs true).fs.containsKey k = true →
      fs.containsKey k = true ∨ goHasPrefix k (goPathClean dest ++ "/") = true) := by
  have hbad2 : ¬(goHasPrefix (resolvePath dest (ents.get ⟨j, hj⟩))
      (goPathClean dest ++ "/") = true) := by
    rw [hbad]; exact Bool.false_ne_true
  have habort := unzipEntries_abort dest ents fs j hj hbad2 hpre
  have hgo : unzipGo dest ents fs true = unzipEntries dest fs ents := by
    unfold unzipGo
    simp
  constructor
  · rw [hgo, habort]
  · intro k hk
    rw [hgo, habort] at hk
    exact unzipEntries_prefix_inv dest (ents.take j) fs fs
      (fun k2 h2 => h2) (fun k2 h2 => Or.inl h2) hchain k hk

/-- Claim C1, witness: extracting `["a.txt", "../evil"]` into `out` aborts
with the `illegal file path` error naming the escaped path `evil`, returns
only the first entry's name, and keeps the already-extracted `out/a.txt`. -/
theorem c1_witness :
    (unzipGo "out" [⟨"a.txt", false, [97], true, true, true⟩,
      ⟨"../evil", false, [1], true, true, true⟩]
      ⟨[("out", FNode.dir)]⟩ true).err = some (.illegalPath "evil") ∧
    (unzipGo "out" [⟨"a.txt", false, [97], true, true, true⟩,
      ⟨"../evil", false, [1], true, true, true⟩]
      ⟨[("out", FNode.dir)]⟩ true).names = ["out/a.txt"] ∧
    (unzipGo "out" [⟨"a.txt", false, [97], true, true, true⟩,
      ⟨"../evil", false, [1], true, true, true⟩]
      ⟨[("out", FNode.dir)]⟩ true).fs.lookup "out/a.txt" =
        some (.file [97]) := by
  have h := (c1_zip_slip_abort "out"
    [⟨"a.txt", false, [97], true, true, true⟩,
     ⟨"../evil", false, [1], true, true, true⟩]
    ⟨[("out", FNode.dir)]⟩ 1 (by decide) (by decide) (by decide) (by decide)).1
  rw [h]
  exact ⟨by decide, by decide, by decide⟩

/-! ## Claim C4 -/

theorem unzipGo_open (dest : String) (ents : List ZipEntry) (fs : FS) :
    unzipGo dest ents fs true = unzipEntries dest fs ents := by
  unfold unzipGo
  simp

/-- Claim C4: on a well-formed run (the archive opens, every entry extracts
without error, the resolved destination paths are pairwise distinct, and no
directory entry's silently-discarded `MkdirAll` error fired), `unzip` returns
the complete list of resolved destination paths — files and directories
alike — in archive order, every file entry's destination holds exactly the
entry's decompressed bytes, and every directory entry's destination is a
directory: the archive's relative path structure and byte contents are
reproduced under the destination. -/
theorem c4_faithful_extraction (dest : String) (ents : List ZipEntry) (fs : FS)
    (herr : (unzipGo dest ents fs true).err = none)
    (hnodup : (ents.map (resolvePath dest)).Nodup)
    (hdirs : (unzipGo dest ents fs true).dirErrs = []) :
    (unzipGo dest ents fs true).names = ents.map (resolvePath dest) ∧
    (∀ e, e ∈ ents → e.isDir = false →
      (unzipGo dest ents fs true).fs.lookup (resolvePath dest e) =
        some (.file e.content)) ∧
    (∀ e, e ∈ ents → e.isDir = true →
      (unzipGo dest ents fs true).fs.lookup (resolvePath dest e) =
        some FNode.dir) := by
  rw [unzipGo_open] at herr hdirs ⊢
  refine ⟨unzipEntries_names dest ents fs herr, ?_, ?_⟩
  · intro e he hd
    exact (unzipEntries_content dest ents fs herr hnodup e he).1 hd
  · intro e he hd
    exact (unzipEntries_content dest ents fs herr hnodup e he).2 hd hdirs

/-- Claim C4, witness: the spec's example archive — a directory `bar`, a
4-byte `foo.txt` and an empty `bar/baz.txt` — extracted into `out` yields
exactly those paths in archive order, with the right contents. -/
theorem c4_witness :
    (unzipGo "out" [⟨"bar", true, [], true, true, true⟩,
      ⟨"foo.txt", false, [97, 98, 99, 100], true, true, true⟩,
      ⟨"bar/baz.txt", false, [], true, true, true⟩]
      ⟨[("out", FNode.dir)]⟩ true).names =
      ["out/bar", "out/foo.txt", "out/bar/baz.txt"] ∧
    (unzipGo "out" [⟨"bar", true, [], true, true, true⟩,
      ⟨"foo.txt", false, [97, 98, 99, 100], true, true, true⟩,
      ⟨"bar/baz.txt", false, [], true, true, true⟩]
      ⟨[("out", FNode.dir)]⟩ true).fs.lookup "out/foo.txt" =
      some (.file [97, 98, 99, 100]) ∧
    (unzipGo "out" [⟨"bar", true, [], true, true, true⟩,
      ⟨"foo.txt", false, [97, 98, 99, 100], true, true, true⟩,
      ⟨"bar/baz.txt", false, [], true, true, true⟩]
      ⟨[("out", FNode.dir)]⟩ true).fs.lookup "out/bar/baz.txt" =
      some (.file []) ∧
    (unzipGo "out" [⟨"bar", true, [], true, true, true⟩,
      ⟨"foo.txt", false, [97, 98, 99, 100], true, true, true⟩,
      ⟨"bar/baz.txt", false, [], true, true, true⟩]
      ⟨[("out", FNode.dir)]⟩ true).fs.lookup "out/bar" = some FNode.dir := by
  have h := c4_faithful_extraction "out"
    [⟨"bar", true, [], true, true, true⟩,
     ⟨"foo.txt", false, [97, 98, 99, 100], true, true, true⟩,
     ⟨"bar/baz.txt", false, [], true, true, true⟩]
    ⟨[("out", FNode.dir)]⟩ (by decide) (by decide) (by decide)
  refine ⟨?_, ?_, ?_, ?_⟩
  · rw [h.1]
    decide
  · exact h.2.1 ⟨"foo.txt", false, [97, 98, 99, 100], true, true, true⟩
      (by decide) rfl
  · exact h.2.1 ⟨"bar/baz.txt", false, [], true, true, true⟩ (by decide) rfl
  · exact h.2.2 ⟨"bar", true, [], true, true, true⟩ (by decide) rfl

/-! ## Claim C5: directory-listing machinery -/

/-- The first path segment of `K` after the prefix `dir ++ "/"`. -/
def firstSegUnder (dir K : String) : String :=
  ⟨(K.data.drop (dir.data.length + 1)).takeWhile (fun x => !(x = '/'))⟩

/-- Well-formedness of the tree under `dir`: every node strictly below `dir`
is reachable through a direct child of `dir` that itself exists, and that
child is a directory unless it is the node itself.  This holds of any real
filesystem tree and is checked at the witnesses. -/
def treeOkUnder (fs : FS) (dir : String) : Bool :=
  fs.nodes.all fun kv =>
    !((dir ++ "/").data.isPrefixOf kv.1.data) ||
      (fs.containsKey (dir ++ "/" ++ firstSegUnder dir kv.1) &&
        (decide (kv.1 = dir ++ "/" ++ firstSegUnder dir kv.1) ||
          fs.isDirAt (dir ++ "/" ++ firstSegUnder dir kv.1)))

theorem splitLastAux_no_slash (l : List Char) (h : ∀ x, x ∈ l → ¬(x = '/')) :
    splitLastAux l = none := by
  induction l with
  | nil => rfl
  | cons c t ih =>
    show (match splitLastAux t with
      | some (p, b) => some (c :: p, b)
      | none => if c = '/' then some ([], t) else none) = none
    rw [ih (fun x hx => h x (by simp [hx]))]
    rw [if_neg (h c (by simp))]

theorem splitLastAux_append (p b : List Char) (h : ∀ x, x ∈ b → ¬(x = '/')) :
    splitLastAux (p ++ '/' :: b) = some (p, b) := by
  induction p with
  | nil =>
    show (match splitLastAux b with
      | some (p2, b2) => some ('/' :: p2, b2)
      | none => if ('/' : Char) = '/' then some ([], b) else none) = _
    rw [splitLastAux_no_slash b h, if_pos rfl]
  | cons c p2 ih =>
    show (match splitLastAux (p2 ++ '/' :: b) with
      | some (p3, b3) => some (c :: p3, b3)
      | none => if c = '/' then some ([], p2 ++ '/' :: b) else none) = _
    rw [ih]

theorem dropWhile_head_false {α : Type} (p : α → Bool) (l : List α) (c : α)
    (t : List α) (h : l.dropWhile p = c :: t) : p c = false := by
  induction l with
  | nil => exact absurd h (by simp)
  | cons x rest ih =>
    rw [List.dropWhile_cons] at h
    by_cases hx : p x = true
    · rw [if_pos hx] at h
      exact ih h
    · rw [if_neg hx] at h
      cases h
      simpa using hx

theorem mem_insertSorted (x a : String × Bool) (l : List (String × Bool)) :
    a ∈ insertSorted x l ↔ a = x ∨ a ∈ l := by
  induction l with
  | nil => simp [insertSorted]
  | cons y t ih =>
    show a ∈ (if lexLe x.1.data y.1.data then x :: y :: t
      else y :: insertSorted x t) ↔ _
    by_cases h : lexLe x.1.data y.1.data = true
    · rw [if_pos h]
      simp only [List.mem_cons]
    · rw [if_neg h]
      simp only [List.mem_cons, ih]
      tauto

theorem mem_sortByName (a : String × Bool) (l : List (String × Bool)) :
    a ∈ sortByName l ↔ a ∈ l := by
  induction l with
  | nil => simp [sortByName]
  | cons x t ih =>
    show a ∈ insertSorted x (sortByName t) ↔ _
    rw [mem_insertSorted]
    simp only [List.mem_cons, ih]

theorem nodesLookup_mem (l : List (String × FNode)) (k : String) (v : FNode)
    (h : nodesLookup l k = some v) : (k, v) ∈ l := by
  induction l with
  | nil => exact absurd h (by simp [nodesLookup])
  | cons kv t ih =>
    obtain ⟨k1, v1⟩ := kv
    by_cases hk : k1 = k
    · subst hk
      simp only [nodesLookup, if_pos rfl] at h
      cases h
      exact List.mem_cons_self _ _
    · simp only [nodesLookup, if_neg hk] at h
      exact List.mem_cons_of_mem _ (ih h)

theorem contains_iff_mem_keys (fs : FS) (k : String) :
    fs.containsKey k = true ↔ k ∈ fs.nodes.map Prod.fst := by
  show (nodesLookup fs.nodes k).isSome = true ↔ _
  induction fs.nodes with
  | nil => simp [nodesLookup]
  | cons kv t ih =>
    obtain ⟨k1, v1⟩ := kv
    by_cases hk : k1 = k
    · subst hk
      simp [nodesLookup]
    · simp only [nodesLookup, if_neg hk, List.map_cons, List.mem_cons, ih]
      constructor
      · intro h; exact Or.inr h
      · rintro (h | h)
        · exact absurd h.symm hk
        · exact h

/-- `ReadDir` completeness: a node whose parent is `dir` appears in the
listing under its base name, with its directory flag. -/
theorem readDir_complete (fs : FS) (dir K : String) (n : FNode)
    (hlk : fs.lookup K = some n) (hpar : keyParent K = dir) :
    (keyBase K, n.isDirNode) ∈ fs.readDir dir := by
  rw [FS.readDir, mem_sortByName]
  refine List.mem_filterMap.mpr ⟨(K, n), nodesLookup_mem fs.nodes K n hlk, ?_⟩
  rw [if_pos hpar]

theorem FS.contains_removeKey_anti (fs : FS) (p k : String)
    (h : (fs.removeKey p).containsKey k = true) : fs.containsKey k = true := by
  by_cases hk : k = p
  · subst hk
    rw [FS.containsKey, FS.lookup_removeKey_self] at h
    exact absurd h (by simp)
  · rw [FS.containsKey, FS.lookup_removeKey fs p k hk] at h
    exact h

theorem FS.contains_removeAllUnder_anti (fs : FS) (p k : String)
    (h : (fs.removeAllUnder p).containsKey k = true) : fs.containsKey k = true := by
  by_cases hm : k = p ∨ ((p ++ "/").data.isPrefixOf k.data) = true
  · rw [FS.containsKey, FS.lookup_removeAllUnder_of_match fs p k hm] at h
    exact absurd h (by simp)
  · push_neg at hm
    rw [FS.containsKey, FS.lookup_removeAllUnder_of_notMatch fs p k hm.1
      (by simpa using hm.2)] at h
    exact h

/-- Removal never adds keys. -/
theorem cleanChildren_contains_anti (dir : String) (rf : List String)
    (listing : List (String × Bool)) (fs : FS) (K : String)
    (h : (cleanChildren dir rf fs listing).1.containsKey K = true) :
    fs.containsKey K = true := by
  induction listing generalizing fs with
  | nil => exact h
  | cons c rest ih =>
    rw [show cleanChildren dir rf fs (c :: rest) =
      (if goPathJoin dir c.1 ∈ rf then
        (fs, some (.cleanFailed (goPathJoin dir c.1)))
      else if c.2 then
        cleanChildren dir rf (fs.removeAllUnder (goPathJoin dir c.1)) rest
      else if fs.containsKey (goPathJoin dir c.1) then
        cleanChildren dir rf (fs.removeKey (goPathJoin dir c.1)) rest
      else (fs, some (.cleanFailed (goPathJoin dir c.1)))) from rfl] at h
    by_cases h1 : goPathJoin dir c.1 ∈ rf
    · rw [if_pos h1] at h
      exact h
    · rw [if_neg h1] at h
      by_cases h2 : c.2
      · rw [if_pos h2] at h
        exact FS.contains_removeAllUnder_anti fs _ K (ih _ h)
      · rw [if_neg h2] at h
        by_cases h3 : fs.containsKey (goPathJoin dir c.1) = true
        · rw [if_pos h3] at h
          exact FS.contains_removeKey_anti fs _ K (ih _ h)
        · rw [if_neg (by simpa using h3)] at h
          exact h

/-- On a removal loop that completes, every key matched by some listing entry
(the entry's join path itself, or anything under it when the entry is a
directory) is gone from the final state. -/
theorem cleanChildren_kill (dir : String) (rf : List String)
    (listing : List (String × Bool)) (fs : FS)
    (hsucc : (cleanChildren dir rf fs listing).2 = none)
    (b : String × Bool) (hb : b ∈ listing) (K : String)
    (hmatch : K = goPathJoin dir b.1 ∨ (b.2 = true ∧
      ((goPathJoin dir b.1 ++ "/").data.isPrefixOf K.data) = true)) :
    (cleanChildren dir rf fs listing).1.containsKey K = false := by
  induction listing generalizing fs with
  | nil => exact absurd hb (by simp)
  | cons c rest ih =>
    have hshape : cleanChildren dir rf fs (c :: rest) =
        (if goPathJoin dir c.1 ∈ rf then
          (fs, some (.cleanFailed (goPathJoin dir c.1)))
        else if c.2 then
          cleanChildren dir rf (fs.removeAllUnder (goPathJoin dir c.1)) rest
        else if fs.containsKey (goPathJoin dir c.1) then
          cleanChildren dir rf (fs.removeKey (goPathJoin dir c.1)) rest
        else (fs, some (.cleanFailed (goPathJoin dir c.1)))) := rfl
    rw [hshape] at hsucc ⊢
    by_cases h1 : goPathJoin dir c.1 ∈ rf
    · rw [if_pos h1] at hsucc
      exact absurd hsucc (by simp)
    · rw [if_neg h1] at hsucc ⊢
      by_cases h2 : c.2
      · rw [if_pos h2] at hsucc ⊢
        rcases List.mem_cons.mp hb with rfl | hbr
        · by_cases hcon : (cleanChildren dir rf
              (fs.removeAllUnder (goPathJoin dir b.1)) rest).1.containsKey K = true
          · exfalso
            have hmid := cleanChildren_contains_anti dir rf rest _ K hcon
            rw [FS.containsKey, FS.lookup_removeAllUnder_of_match fs _ K
              (by rcases hmatch with h | h
                  · exact Or.inl h
                  · exact Or.inr h.2)] at hmid
            exact absurd hmid (by simp)
          · simpa using hcon
        · exact ih _ hsucc hbr
      · rw [if_neg h2] at hsucc ⊢
        by_cases h3 : fs.containsKey (goPathJoin dir c.1) = true
        · rw [if_pos h3] at hsucc ⊢
          rcases List.mem_cons.mp hb with rfl | hbr
          · have hKc : K = goPathJoin dir b.1 := by
              rcases hmatch with h | h
              · exact h
              · rw [h.1] at h2
                exact absurd rfl h2
            by_cases hcon : (cleanChildren dir rf
                (fs.removeKey (goPathJoin dir b.1)) rest).1.containsKey K = true
            · exfalso
              have hmid := cleanChildren_contains_anti dir rf rest _ K hcon
              rw [hKc, FS.containsKey, FS.lookup_removeKey_self] at hmid
              exact absurd hmid (by simp)
            · simpa using hcon
          · exact ih _ hsucc hbr
        · rw [if_neg (by simpa using h3)] at hsucc
          exact absurd hsucc (by simp)

theorem long_isPrefixOf_false (x y : List Char) (h : y.length < x.length) :
    x.isPrefixOf y = false := by
  cases hv : x.isPrefixOf y
  · rfl
  · have := (List.isPrefixOf_iff_prefix.mp hv).length_le
    omega

/-- After a successful preparation of an existing target directory, no node
remains strictly under the directory: every direct child was removed, files
individually and sub-directories recursively. -/
theorem prepareDir_clears (dir : String) (fs1 : FS) (mk rd : Bool)
    (rf : List String)
    (htree : treeOkUnder fs1 dir = true)
    (hjoin : ∀ c, c ∈ fs1.readDir dir → goPathJoin dir c.1 = dir ++ "/" ++ c.1)
    (hdirIn : fs1.containsKey dir = true)
    (hsucc : (prepareDir dir fs1 mk rd rf).2 = none) :
    ∀ K, ((dir ++ "/").data.isPrefixOf K.data) = true →
      (prepareDir dir fs1 mk rd rf).1.containsKey K = false := by
  intro K hKpre
  have hguard : rd = true ∧ fs1.isDirAt dir = true := by
    by_cases hg : rd = true ∧ fs1.isDirAt dir = true
    · exact hg
    · exfalso
      unfold prepareDir at hsucc
      rw [if_neg (by simpa using hdirIn), if_pos (by simpa using hg)] at hsucc
      exact absurd hsucc (by simp)
  have hred : prepareDir dir fs1 mk rd rf =
      cleanChildren dir rf fs1 (fs1.readDir dir) := by
    unfold prepareDir
    rw [if_neg (by simpa using hdirIn), if_neg (by simpa using hguard)]
  rw [hred] at hsucc ⊢
  by_cases hcon : (cleanChildren dir rf fs1 (fs1.readDir dir)).1.containsKey K = true
  case neg => simpa using hcon
  exfalso
  have hK1 : fs1.containsKey K = true :=
    cleanChildren_contains_anti _ _ _ _ _ hcon
  obtain ⟨nK, hlkK⟩ : ∃ nK, fs1.lookup K = some nK := by
    rw [FS.containsKey, Option.isSome_iff_exists] at hK1
    exact hK1
  have hmemK : (K, nK) ∈ fs1.nodes := nodesLookup_mem _ _ _ hlkK
  obtain ⟨tail, htail⟩ : ∃ tail, K.data = dir.data ++ '/' :: tail := by
    obtain ⟨t, ht⟩ := List.isPrefixOf_iff_prefix.mp hKpre
    refine ⟨t, ?_⟩
    rw [← ht, String.data_append, List.append_assoc]
    rfl
  have hseg : firstSegUnder dir K =
      ⟨tail.takeWhile (fun x => !(x = '/'))⟩ := by
    unfold firstSegUnder
    congr 1
    rw [htail]
    rw [show dir.data ++ '/' :: tail = (dir.data ++ ['/']) ++ tail by simp]
    rw [show dir.data.length + 1 = (dir.data ++ ['/']).length by simp]
    rw [List.drop_left]
  have hckdata : (dir ++ "/" ++ firstSegUnder dir K).data =
      dir.data ++ '/' :: tail.takeWhile (fun x => !(x = '/')) := by
    rw [hseg, String.data_append, String.data_append]
    simp
  have htK := (List.all_eq_true.mp htree) (K, nK) hmemK
  simp only [hKpre, Bool.not_true, Bool.false_or, Bool.and_eq_true] at htK
  obtain ⟨hckIn, hKor⟩ := htK
  obtain ⟨nck, hlkck⟩ : ∃ n, fs1.lookup (dir ++ "/" ++ firstSegUnder dir K)
      = some n := by
    rw [FS.containsKey, Option.isSome_iff_exists] at hckIn
    exact hckIn
  have hb0slash : ∀ x, x ∈ tail.takeWhile (fun x => !(x = '/')) → ¬(x = '/') := by
    intro x hx
    have := List.mem_takeWhile_imp hx
    simpa using this
  have hparck : keyParent (dir ++ "/" ++ firstSegUnder dir K) = dir := by
    unfold keyParent
    rw [hckdata, splitLastAux_append dir.data _ hb0slash]
  have hbaseck : keyBase (dir ++ "/" ++ firstSegUnder dir K) =
      ⟨tail.takeWhile (fun x => !(x = '/'))⟩ := by
    unfold keyBase
    rw [hckdata, splitLastAux_append dir.data _ hb0slash]
  have hlist : ((⟨tail.takeWhile (fun x => !(x = '/'))⟩ : String),
      nck.isDirNode) ∈ fs1.readDir dir := by
    have := readDir_complete fs1 dir _ nck hlkck hparck
    rwa [hbaseck] at this
  have hjoin2 : goPathJoin dir (⟨tail.takeWhile (fun x => !(x = '/'))⟩ : String)
      = dir ++ "/" ++ firstSegUnder dir K := by
    have := hjoin _ hlist
    simp only at this
    rw [this, hseg]
  have htd := List.takeWhile_append_dropWhile (fun x => !(x = '/')) tail
  have hmatch : K = goPathJoin dir
      ((⟨tail.takeWhile (fun x => !(x = '/'))⟩ : String), nck.isDirNode).1 ∨
      (((⟨tail.takeWhile (fun x => !(x = '/'))⟩ : String), nck.isDirNode).2 = true ∧
        ((goPathJoin dir ((⟨tail.takeWhile (fun x => !(x = '/'))⟩ : String),
          nck.isDirNode).1 ++ "/").data.isPrefixOf K.data) = true) := by
    simp only
    rw [hjoin2]
    by_cases hKck : K = dir ++ "/" ++ firstSegUnder dir K
    · exact Or.inl hKck
    · refine Or.inr ⟨?_, ?_⟩
      · -- K ≠ ck forces the child to be a directory
        have hor := (Bool.or_eq_true _ _).mp hKor
        rcases hor with h | h
        · exact absurd (of_decide_eq_true h) hKck
        · rw [FS.isDirAt, hlkck] at h
          cases nck
          · exact absurd h (by simp)
          · rfl
      · -- the remainder after the first segment starts with '/'
        rcases hrest : tail.dropWhile (fun x => !(x = '/')) with _ | ⟨r0, rt⟩
        · exfalso
          apply hKck
          apply String.ext
          rw [htail, hckdata]
          rw [hrest, List.append_nil] at htd
          rw [htd]
        · have hr0 : r0 = '/' := by
            have := dropWhile_head_false (fun x => !(x = '/')) tail r0 rt hrest
            simpa using this
          subst hr0
          refine List.isPrefixOf_iff_prefix.mpr ?_
          obtain ⟨b0, hb0⟩ : ∃ b0,
              List.takeWhile (fun x => !(x = '/')) tail = b0 := ⟨_, rfl⟩
          have htd2 : b0 ++ '/' :: rt = tail := by
            rw [← hb0, ← hrest]
            exact htd
          have hslash : ((dir ++ "/" ++ firstSegUnder dir K) ++ "/").data =
              (dir.data ++ '/' :: b0) ++ ['/'] := by
            rw [String.data_append, hckdata, hb0]
          refine ⟨rt, ?_⟩
          rw [hslash, htail, ← htd2]
          simp
  have hkill := cleanChildren_kill dir rf (fs1.readDir dir) fs1 hsucc
    _ hlist K hmatch
  rw [hkill] at hcon
  exact Bool.noConfusion hcon

/-- On an error-free run every entry passed the zip-slip check. -/
theorem unzipEntries_all_checked (dest : String) (ents : List ZipEntry) (fs : FS)
    (herr : (unzipEntries dest fs ents).err = none) :
    ∀ e, e ∈ ents →
      goHasPrefix (resolvePath dest e) (goPathClean dest ++ "/") = true := by
  induction ents generalizing fs with
  | nil => intro e he; exact absurd he (by simp)
  | cons e0 rest ih =>
    have hunfold : unzipEntries dest fs (e0 :: rest) =
        match unzipStep dest fs e0 with
        | .halt f ns er t => (⟨f, ns, some er, t, []⟩ : UnzipOut)
        | .cont f nm t de =>
          let r := unzipEntries dest f rest
          ⟨r.fs, nm :: r.names, r.err, t ++ r.trace, de ++ r.dirErrs⟩ := rfl
    rcases hstep : unzipStep dest fs e0 with ⟨f, nm, t, de⟩ | ⟨f, ns, er, t⟩
    · have hspec := (unzipStep_spec dest fs e0).1 f nm t de hstep
      rw [hunfold, hstep] at herr
      intro e he
      rcases List.mem_cons.mp he with rfl | he2
      · exact hspec.2.1
      · exact ih f herr e he2
    · rw [hunfold, hstep] at herr
      exact absurd herr (by simp)

/-- `prepareDir` on an existing directory never removes the directory
itself. -/
theorem prepareDir_keeps_dir (dir : String) (fs1 : FS) (mk rd : Bool)
    (rf : List String)
    (hjoin : ∀ c, c ∈ fs1.readDir dir → goPathJoin dir c.1 = dir ++ "/" ++ c.1)
    (hdirAt : fs1.lookup dir = some FNode.dir) :
    (prepareDir dir fs1 mk rd rf).1.lookup dir = some FNode.dir := by
  have hdirIn : fs1.containsKey dir = true :=
    FS.contains_of_lookup_some _ _ _ hdirAt
  unfold prepareDir
  rw [if_neg (by simpa using hdirIn)]
  by_cases h2 : rd = true ∧ fs1.isDirAt dir = true
  · rw [if_neg (by simpa using h2)]
    have hpres : (cleanChildren dir rf fs1 (fs1.readDir dir)).1.lookup dir =
        fs1.lookup dir := by
      refine cleanChildren_lookup_pres dir rf _ fs1 dir ?_
      intro c hc
      rw [hjoin c hc]
      have hlen : (dir ++ "/" ++ c.1).data.length =
          dir.data.length + 1 + c.1.data.length := by
        rw [String.data_append, String.data_append]
        simp only [List.length_append, List.length_singleton]
      constructor
      · intro heq
        have := congrArg (fun s => s.data.length) heq
        simp only at this
        omega
      · refine long_isPrefixOf_false _ _ ?_
        rw [String.data_append]
        simp only [List.length_append]
        omega
    rw [hpres]
    exact hdirAt
  · rw [if_pos (by simpa using h2)]
    exact hdirAt

theorem unzipGo_preserves (dest : String) (ents : List ZipEntry) (fs : FS)
    (openOk : Bool) (p : String) (n : FNode) (hp : fs.lookup p = some n)
    (hnot : ¬(p ∈ ents.map (resolvePath dest))) :
    (unzipGo dest ents fs openOk).fs.lookup p = some n := by
  unfold unzipGo
  by_cases ho : openOk = true
  · rw [if_neg (by simpa using ho)]
    exact unzipEntries_preserves dest ents fs p n hp hnot
  · rw [if_pos (by simpa using ho)]
    exact hp

/-! ## Claim C5 -/

/-- Claim C5: when the target directory exists, preparation removes every
node strictly under it (direct children: files individually, sub-directories
recursively) while keeping the directory itself; when it does not exist it is
created (and nothing else happens); and after a fully successful run the
directory is still in place and contains exactly the keys the extraction of
the selected artifact's archive created — no residue of its old contents. -/
theorem c5_replace_directory_contents (dir : String) (ents : List ZipEntry)
    (fs0 : FS) (o : IOOracles)
    (hclean : goPathClean dir = dir)
    (hdirne : ¬(dir = "dist.zip"))
    (hdir : fs0.lookup dir = some FNode.dir)
    (htree : treeOkUnder (fs0.insert "dist.zip" (.file [])) dir = true)
    (hjoin : ∀ c, c ∈ (fs0.insert "dist.zip" (.file [])).readDir dir →
      goPathJoin dir c.1 = dir ++ "/" ++ c.1)
    (hdz : ((dir ++ "/").data.isPrefixOf "dist.zip".data) = false)
    (hprep : (prepareDir dir (fs0.insert "dist.zip" (.file []))
      o.mkdirOk o.readDirOk o.removeFail).2 = none)
    (hrun : (downloadAndReplace dir ents fs0 o).2 = none) :
    (prepareDir dir (fs0.insert "dist.zip" (.file []))
      o.mkdirOk o.readDirOk o.removeFail).1.lookup dir = some FNode.dir ∧
    (∀ K, goHasPrefix K (dir ++ "/") = true →
      (prepareDir dir (fs0.insert "dist.zip" (.file []))
        o.mkdirOk o.readDirOk o.removeFail).1.containsKey K = false) ∧
    (∀ fsX : FS, fsX.containsKey dir = false →
      prepareDir dir fsX true o.readDirOk o.removeFail =
        (fsX.insert dir .dir, none)) ∧
    (downloadAndReplace dir ents fs0 o).1.lookup dir = some FNode.dir ∧
    (∀ K, goHasPrefix K (dir ++ "/") = true →
      ((downloadAndReplace dir ents fs0 o).1.containsKey K = true ↔
        K ∈ FS.newKeys
          (prepareDir dir (fs0.insert "dist.zip" (.file []))
            o.mkdirOk o.readDirOk o.removeFail).1
          (unzipGo dir ents (prepareDir dir (fs0.insert "dist.zip" (.file []))
            o.mkdirOk o.readDirOk o.removeFail).1 o.archiveOpenOk).fs)) := by
  have hdir1 : (fs0.insert "dist.zip" (.file [])).lookup dir = some FNode.dir := by
    rw [FS.lookup_insert_ne _ _ _ _ hdirne]
    exact hdir
  have hdirIn1 : (fs0.insert "dist.zip" (.file [])).containsKey dir = true :=
    FS.contains_of_lookup_some _ _ _ hdir1
  have hkeeps := prepareDir_keeps_dir dir (fs0.insert "dist.zip" (.file []))
    o.mkdirOk o.readDirOk o.removeFail hjoin hdir1
  have hclears : ∀ K, goHasPrefix K (dir ++ "/") = true →
      (prepareDir dir (fs0.insert "dist.zip" (.file []))
        o.mkdirOk o.readDirOk o.removeFail).1.containsKey K = false :=
    fun K hK => prepareDir_clears dir _ o.mkdirOk o.readDirOk o.removeFail
      htree hjoin hdirIn1 hprep K hK
  -- decompose the successful run
  have h1 : o.downloadOk = true := by
    by_cases h : o.downloadOk = true
    · exact h
    · rw [dAR_download_fail dir ents fs0 o (by simpa using h)] at hrun
      exact absurd hrun (by simp)
  have hrerr : (unzipGo dir ents (prepareDir dir (fs0.insert "dist.zip" (.file []))
      o.mkdirOk o.readDirOk o.removeFail).1 o.archiveOpenOk).err = none := by
    rcases hr : (unzipGo dir ents (prepareDir dir
        (fs0.insert "dist.zip" (.file []))
        o.mkdirOk o.readDirOk o.removeFail).1 o.archiveOpenOk).err with _ | ue
    · rfl
    · rw [dAR_unzip_fail dir ents fs0 o ue h1 hprep hr] at hrun
      exact absurd hrun (by simp)
  have ho : o.archiveOpenOk = true := by
    by_cases h : o.archiveOpenOk = true
    · exact h
    · exfalso
      unfold unzipGo at hrerr
      rw [if_pos (by simpa using h)] at hrerr
      exact absurd hrerr (by simp)
  have h4 : o.removeZipOk = true ∧
      (unzipGo dir ents (prepareDir dir (fs0.insert "dist.zip" (.file []))
        o.mkdirOk o.readDirOk o.removeFail).1
        o.archiveOpenOk).fs.containsKey "dist.zip" = true := by
    by_cases h : o.removeZipOk = true ∧
        (unzipGo dir ents (prepareDir dir (fs0.insert "dist.zip" (.file []))
          o.mkdirOk o.readDirOk o.removeFail).1
          o.archiveOpenOk).fs.containsKey "dist.zip" = true
    · exact h
    · rw [dAR_cleanup_fail dir ents fs0 o h1 hprep hrerr h] at hrun
      exact absurd hrun (by simp)
  have hfinal := dAR_success dir ents fs0 o h1 hprep hrerr h4
  -- no entry resolves to the directory itself
  have herr2 : (unzipEntries dir (prepareDir dir (fs0.insert "dist.zip" (.file []))
      o.mkdirOk o.readDirOk o.removeFail).1 ents).err = none := by
    rw [ho] at hrerr
    rw [unzipGo_open] at hrerr
    exact hrerr
  have hnotdir : ¬(dir ∈ ents.map (resolvePath dir)) := by
    intro hmem
    obtain ⟨e, he, hre⟩ := List.mem_map.mp hmem
    have hchk := unzipEntries_all_checked dir ents _ herr2 e he
    rw [hre] at hchk
    unfold goHasPrefix at hchk
    rw [hclean] at hchk
    have hlen : dir.data.length < (dir ++ "/").data.length := by
      rw [String.data_append]
      simp
    rw [long_isPrefixOf_false _ _ hlen] at hchk
    exact Bool.noConfusion hchk
  refine ⟨hkeeps, hclears, ?_, ?_, ?_⟩
  · intro fsX hX
    unfold prepareDir
    rw [if_pos (by simp [hX]), if_pos rfl]
  · rw [hfinal]
    show ((unzipGo dir ents _ o.archiveOpenOk).fs.removeKey "dist.zip").lookup dir
      = some FNode.dir
    rw [FS.lookup_removeKey _ _ _ hdirne]
    exact unzipGo_preserves dir ents _ o.archiveOpenOk dir FNode.dir hkeeps hnotdir
  · intro K hK
    have hKdz : ¬(K = "dist.zip") := by
      rintro rfl
      unfold goHasPrefix at hK
      rw [hK] at hdz
      exact Bool.noConfusion hdz
    rw [hfinal]
    show (((unzipGo dir ents _ o.archiveOpenOk).fs.removeKey "dist.zip").containsKey K
      = true) ↔ _
    rw [FS.containsKey, FS.lookup_removeKey _ _ _ hKdz]
    rw [show ((unzipGo dir ents (prepareDir dir (fs0.insert "dist.zip" (.file []))
      o.mkdirOk o.readDirOk o.removeFail).1 o.archiveOpenOk).fs.lookup K).isSome
      = (unzipGo dir ents (prepareDir dir (fs0.insert "dist.zip" (.file []))
      o.mkdirOk o.readDirOk o.removeFail).1 o.archiveOpenOk).fs.containsKey K
      from rfl]
    constructor
    · intro hcon
      refine List.mem_filter.mpr ⟨(contains_iff_mem_keys _ _).mp hcon, ?_⟩
      rw [hclears K hK]
      rfl
    · intro hmem
      exact (contains_iff_mem_keys _ _).mpr (List.mem_filter.mp hmem).1

/-- Claim C5, witness: replacing the contents of `out` (holding an old file
and an old sub-tree) with a two-entry archive leaves `out` a directory whose
strict descendants are exactly the extracted entries, with a sibling file
outside `out` untouched by the cleaning. -/
theorem c5_witness :
    ((prepareDir "out" ((⟨[("out", FNode.dir), ("out/old.txt", FNode.file [1]),
        ("out/sub", FNode.dir), ("out/sub/x", FNode.file [2]),
        ("keep.txt", FNode.file [9])]⟩ : FS).insert "dist.zip" (.file []))
        true true []).1.lookup "out" = some FNode.dir) ∧
    ((prepareDir "out" ((⟨[("out", FNode.dir), ("out/old.txt", FNode.file [1]),
        ("out/sub", FNode.dir), ("out/sub/x", FNode.file [2]),
        ("keep.txt", FNode.file [9])]⟩ : FS).insert "dist.zip" (.file []))
        true true []).1.containsKey "out/sub/x" = false) ∧
    ((downloadAndReplace "out" [⟨"a.txt", false, [97], true, true, true⟩]
        ⟨[("out", FNode.dir), ("out/old.txt", FNode.file [1]),
          ("out/sub", FNode.dir), ("out/sub/x", FNode.file [2]),
          ("keep.txt", FNode.file [9])]⟩ {}).1.lookup "out" = some FNode.dir) ∧
    ((downloadAndReplace "out" [⟨"a.txt", false, [97], true, true, true⟩]
        ⟨[("out", FNode.dir), ("out/old.txt", FNode.file [1]),
          ("out/sub", FNode.dir), ("out/sub/x", FNode.file [2]),
          ("keep.txt", FNode.file [9])]⟩ {}).1.containsKey "out/old.txt" = false) := by
  have h := c5_replace_directory_contents "out"
    [⟨"a.txt", false, [97], true, true, true⟩]
    ⟨[("out", FNode.dir), ("out/old.txt", FNode.file [1]),
      ("out/sub", FNode.dir), ("out/sub/x", FNode.file [2]),
      ("keep.txt", FNode.file [9])]⟩ {}
    (by decide) (by decide) (by decide) (by decide)
    (by decide) (by decide) (by decide) (by decide)
  refine ⟨h.1, h.2.1 "out/sub/x" (by decide), h.2.2.2.1, ?_⟩
  have h5 := (h.2.2.2.2 "out/old.txt" (by decide))
  by_cases hcon : (downloadAndReplace "out"
      [⟨"a.txt", false, [97], true, true, true⟩]
      ⟨[("out", FNode.dir), ("out/old.txt", FNode.file [1]),
        ("out/sub", FNode.dir), ("out/sub/x", FNode.file [2]),
        ("keep.txt", FNode.file [9])]⟩ {}).1.containsKey "out/old.txt" = true
  · exfalso
    have := h5.mp hcon
    revert this
    decide
  · simpa using hcon

end UpdaterModel
